import Mathlib

/-!
Verification of the nerdamer core against its specification.

The development shallowly embeds the term type of src/src/Types/Symbol.js
(class Symbol), the error behaviour of the tokenizer scan loop of
src/src/Parser/Tokenizer.ts, and the expression wrapper comparison methods
of the unnamed wrapper file.  Rationals (class Frac, outside src) are
modelled from the spec as Lean rationals: the spec fixes Frac as an exact
rational in lowest terms with sign on the numerator, which is exactly Rat.
External collaborators of Symbol.js that live outside src (the text/hash
renderer of Core/Text, the arithmetic kernel of Functions/Core, decimal
emission of Frac) enter the model as explicit function parameters bundled
in the Ext structure, so every theorem quantifies over them.
-/

set_option linter.unusedVariables false
set_option linter.unreachableTactic false
set_option linter.unnecessarySeqFocus false
set_option linter.unusedTactic false

namespace NerdamerModel

/-- Group tags of a term.  The numbering follows the classic nerdamer
ordering (N=1 .. CP=8); the verified code paths only ever compare a group
against FN (composites are the groups above FN) or test equality. -/
inductive SGroup where
  | N | P | S | EX | FN | PL | CB | CP
deriving DecidableEq, Repr

/-- Numeric rank of a group, as in Types/Groups (N=1, P=2, S=3, EX=4, FN=5,
PL=6, CB=7, CP=8). -/
def SGroup.toNat : SGroup → Nat
  | .N => 1
  | .P => 2
  | .S => 3
  | .EX => 4
  | .FN => 5
  | .PL => 6
  | .CB => 7
  | .CP => 8

/-- Test group > Groups.FN, the source test for composite containers. -/
def SGroup.gtFN (g : SGroup) : Bool := decide (5 < g.toNat)

/-- Modelled from the spec: Settings.CONST_HASH, the sentinel value of
numeric-group terms ("value = constant-hash sentinel").  Settings lives
outside src. -/
def CONST_HASH : String := "#"

/-- Modelled from the spec: Settings.IMAGINARY, the atom name of the
imaginary unit. -/
def IMAGINARY : String := "i"

/-- Modelled from the spec: Settings.PARENTHESIS, the reserved function name
of the transparent-parens wrapper. -/
def PARENTHESIS : String := "parens"

/-- Modelled from the spec: Settings.POWER_OPERATOR, the glyph used in
canonical hashes for exponentiation. -/
def POWER_OPERATOR : String := "^"

/-- Non-recursive fields of a term.  multiplier and power 1 correspond to
the constructor defaults of Symbol; the Bool flags model the optional JS
properties (absent = false).  length is the manually maintained child
count; Int because the source decrements it with the -- operator. -/
structure SymCore where
  group : SGroup
  value : String
  multiplier : Rat
  length : Int
  previousGroup : Option SGroup
  fname : Option String
  imaginary : Bool
  isInfinity : Bool
  isUnit : Bool
  isConversion : Bool
  scientific : Bool
  parens : Bool
deriving DecidableEq, Repr

mutual
/-- The term type (class Symbol).  symbols is the child map of composite
groups, an insertion-ordered association list exactly like a JS object
keyed by strings; none models an absent (undefined) map.  args holds the
ordered arguments of FN terms. -/
inductive Sym : Type where
  | mk (core : SymCore) (power : SPow) (symbols : Option (List (String × Sym)))
       (args : List Sym) : Sym
deriving Repr

/-- The power field: a rational for non-EX terms, a term for EX terms. -/
inductive SPow : Type where
  | frac (q : Rat) : SPow
  | sym (s : Sym) : SPow
deriving Repr
end

def Sym.core : Sym → SymCore
  | .mk c _ _ _ => c

def Sym.power : Sym → SPow
  | .mk _ p _ _ => p

def Sym.symbols : Sym → Option (List (String × Sym))
  | .mk _ _ s _ => s

def Sym.args : Sym → List Sym
  | .mk _ _ _ a => a

def Sym.group (t : Sym) : SGroup := t.core.group

def Sym.value (t : Sym) : String := t.core.value

def Sym.multiplier (t : Sym) : Rat := t.core.multiplier

def Sym.length (t : Sym) : Int := t.core.length

def Sym.previousGroup (t : Sym) : Option SGroup := t.core.previousGroup

def Sym.fname (t : Sym) : Option String := t.core.fname

def Sym.withGroup : Sym → SGroup → Sym
  | .mk c p s a, g => .mk {c with group := g} p s a

def Sym.withValue : Sym → String → Sym
  | .mk c p s a, v => .mk {c with value := v} p s a

def Sym.withMultiplier : Sym → Rat → Sym
  | .mk c p s a, m => .mk {c with multiplier := m} p s a

def Sym.withLength : Sym → Int → Sym
  | .mk c p s a, n => .mk {c with length := n} p s a

def Sym.withPrevGroup : Sym → Option SGroup → Sym
  | .mk c p s a, g => .mk {c with previousGroup := g} p s a

def Sym.withFname : Sym → Option String → Sym
  | .mk c p s a, f => .mk {c with fname := f} p s a

def Sym.withParens : Sym → Bool → Sym
  | .mk c p s a, b => .mk {c with parens := b} p s a

def Sym.withPower : Sym → SPow → Sym
  | .mk c _ s a, p => .mk c p s a

def Sym.withSymbols : Sym → Option (List (String × Sym)) → Sym
  | .mk c p _ a, s => .mk c p s a

def Sym.withArgs : Sym → List Sym → Sym
  | .mk c p s _, a => .mk c p s a

/-- Constructor branch of Symbol for a numeric argument: group N, value the
constant hash, all numeric information in the multiplier, power 1. -/
def Sym.num (q : Rat) : Sym :=
  .mk { group := .N, value := CONST_HASH, multiplier := q, length := 0,
        previousGroup := none, fname := none, imaginary := false,
        isInfinity := false, isUnit := false, isConversion := false,
        scientific := false, parens := false } (.frac 1) none []

/-- Constructor branch of Symbol for a name: group S, value the name,
multiplier 1, power 1; the imaginary and isInfinity flags are set from the
name exactly as in the constructor. -/
def Sym.var (name : String) : Sym :=
  .mk { group := .S, value := name, multiplier := 1, length := 0,
        previousGroup := none, fname := none,
        imaginary := name == IMAGINARY,
        isInfinity := name == "Infinity", isUnit := false,
        isConversion := false, scientific := false, parens := false }
      (.frac 1) none []

mutual
/-- Symbol.equals (Symbol.js lines 276-282): value, power, multiplier and
group are compared; the child map is not examined. -/
def symEquals : Sym → Sym → Bool
  | .mk c1 p1 _ _, .mk c2 p2 _ _ =>
    c1.value == c2.value && powEquals p1 p2 && c1.multiplier == c2.multiplier
      && c1.group == c2.group

/-- Equality of power fields: Frac.equals on rationals, Symbol.equals on
term powers.  A rational power never equals a term power (in the source
such a comparison would be a cross-type Frac.equals call). -/
def powEquals : SPow → SPow → Bool
  | .frac q1, .frac q2 => q1 == q2
  | .sym s1, .sym s2 => symEquals s1 s2
  | _, _ => false
end

/-- Comparison of a power against a rational literal, as in
this.power.equals(q): a term power is compared against new Symbol(q). -/
def powEqualsQ (p : SPow) (q : Rat) : Bool :=
  match p with
  | .frac r => r == q
  | .sym s => symEquals s (Sym.num q)

/-- Test this.power.equals(1), used by isLinear and toLinear. -/
def powIsOne (p : SPow) : Bool := powEqualsQ p 1

/-- Frac.absEquals: equality of absolute values. -/
def absEquals (a b : Rat) : Bool := |a| == |b|

/-- Symbol.isOne (Symbol.js lines 1402-1408): a numeric term is 1 when its
multiplier is (absolutely) 1; any other term is 1 when its power is 0. -/
def isOne (abs : Bool) (t : Sym) : Bool :=
  if t.group == .N then
    (if abs then absEquals t.multiplier 1 else t.multiplier == 1)
  else powEqualsQ t.power 0

/-- Symbol.isConstant with no arguments: the value is the constant hash. -/
def isConstant (t : Sym) : Bool := t.value == CONST_HASH

/-- Modelled from the spec: isNumericSymbol of Core/Utils-js (outside src)
recognises the purely numeric groups N and P. -/
def isNumericSymbol (g : SGroup) : Bool := g == .N || g == .P

mutual
/-- Symbol.isConstant(true) (Symbol.js lines 612-647) with check_all the
boolean true and check_symbols absent: an FN term is constant when all its
arguments are, anything else when its group is numeric. -/
def isConstantAll : Sym → Bool
  | .mk c _ _ args =>
    if c.group == .FN then allConstantAll args else isNumericSymbol c.group

def allConstantAll : List Sym → Bool
  | [] => true
  | x :: r => isConstantAll x && allConstantAll r
end

mutual
/-- Symbol.clone (Symbol.js lines 841-870): the child map is cloned deeply,
the power is cloned (recursively when it is a term), the multiplier is
cloned, and the listed plain properties (value, group, length,
previousGroup, imaginary, fname, args, isInfinity, scientific, and the
conditionally copied isConversion and isUnit flags) are copied onto a
fresh new Symbol(0).  The property list omits parens, so the target keeps
it unset: the clone resets parens to false.  Note args is copied by
reference in the source; in this value model that is a plain field
copy. -/
def cloneSym : Sym → Sym
  | .mk c p syms args =>
    .mk { c with parens := false } (clonePow p) (cloneChildren syms) args

def clonePow : SPow → SPow
  | .frac q => .frac q
  | .sym s => .sym (cloneSym s)

def cloneChildren : Option (List (String × Sym)) → Option (List (String × Sym))
  | none => none
  | some l => some (cloneList l)

def cloneList : List (String × Sym) → List (String × Sym)
  | [] => []
  | (k, s) :: r => (k, cloneSym s) :: cloneList r
end

/-- Symbol.toUnitMultiplier (Symbol.js lines 877-881): the multiplier
becomes 1, or -1 when it was negative and keepSign is set. -/
def toUnitMultiplier (keepSign : Bool) (t : Sym) : Sym :=
  t.withMultiplier (if t.multiplier < 0 && keepSign then -1 else 1)

/-- Association list lookup, modelling a property read on a JS object. -/
def lookupA (l : List (String × Sym)) (key : String) : Option Sym :=
  match l with
  | [] => none
  | (k, s) :: r => if k == key then some s else lookupA r key

/-- Association list update at an existing key (a JS property write keeps
the original insertion position); appends when the key is absent. -/
def setA (l : List (String × Sym)) (key : String) (v : Sym) :
    List (String × Sym) :=
  match l with
  | [] => [(key, v)]
  | (k, s) :: r => if k == key then (k, v) :: r else (k, s) :: setA r key v

/-- Association list deletion, modelling the JS delete operator and the
remove helper of Core/Utils. -/
def eraseA (l : List (String × Sym)) (key : String) : List (String × Sym) :=
  match l with
  | [] => []
  | (k, s) :: r => if k == key then r else (k, s) :: eraseA r key

def keysA (l : List (String × Sym)) : List String := l.map Prod.fst

/-! ## External collaborators

Functions of the repository that Symbol.js calls but that live outside
src: the canonical text renderer (Core/Text), decimal emission and
reparsing of Frac, numeric interpretation of value strings, Math.pow, and
the arithmetic kernel add/multiply of Functions/Core.  They are bundled as
explicit parameters so that every theorem quantifies over them. -/

structure Ext where
  /-- text(s, "hash") of Core/Text: the canonical hash form of a term. -/
  textHash : Sym → String
  /-- text(s) of Core/Text: the plain text form of a term. -/
  textOf : Sym → String
  /-- Frac.toDecimal as used to build child keys from powers. -/
  powKey : Rat → String
  /-- Frac.toString as used for the PL-into-PL key. -/
  powStr : Rat → String
  /-- Roundtrip of a multiplier through toDecimal and the Frac constructor,
  performed by convert to group N. -/
  dec : Rat → Rat
  /-- Numeric interpretation of a value string (new Frac(this.value)). -/
  valNum : String → Rat
  /-- Math.pow(value, power) on a group-P term inside convert to N. -/
  powNum : String → SPow → Rat
  /-- The kernel add of Functions/Core, invoked by insert on colliding keys
  under the add action. -/
  addK : Sym → Sym → Sym
  /-- The kernel multiply of Functions/Core, invoked by insert on colliding
  keys under the multiply action. -/
  mulK : Sym → Sym → Sym

/-! ## Depth measure

A structural depth that ignores the rational fields, used as termination
measure where the source recurses on a term whose multiplier was just
rewritten. -/

mutual
def Sym.mass : Sym → Nat
  | .mk _ p syms args => 1 + SPow.mass p + childrenMassO syms + argsMass args

def SPow.mass : SPow → Nat
  | .frac _ => 0
  | .sym s => Sym.mass s

def childrenMassO : Option (List (String × Sym)) → Nat
  | none => 0
  | some l => childrenMass l

def childrenMass : List (String × Sym) → Nat
  | [] => 0
  | (_, s) :: r => 1 + Sym.mass s + childrenMass r

def argsMass : List Sym → Nat
  | [] => 0
  | s :: r => 1 + Sym.mass s + argsMass r
end

/-! ## Accessor and updater simp lemmas -/

@[simp] theorem group_withValue (t : Sym) (v : String) : (t.withValue v).group = t.group := by cases t; rfl
@[simp] theorem group_withMultiplier (t : Sym) (m : Rat) : (t.withMultiplier m).group = t.group := by cases t; rfl
@[simp] theorem group_withLength (t : Sym) (n : Int) : (t.withLength n).group = t.group := by cases t; rfl
@[simp] theorem group_withSymbols (t : Sym) (s : Option (List (String × Sym))) : (t.withSymbols s).group = t.group := by cases t; rfl
@[simp] theorem group_withPower (t : Sym) (p : SPow) : (t.withPower p).group = t.group := by cases t; rfl
@[simp] theorem group_withPrevGroup (t : Sym) (g : Option SGroup) : (t.withPrevGroup g).group = t.group := by cases t; rfl
@[simp] theorem group_withFname (t : Sym) (f : Option String) : (t.withFname f).group = t.group := by cases t; rfl
@[simp] theorem group_withParens (t : Sym) (b : Bool) : (t.withParens b).group = t.group := by cases t; rfl
@[simp] theorem group_withArgs (t : Sym) (a : List Sym) : (t.withArgs a).group = t.group := by cases t; rfl
@[simp] theorem group_withGroup (t : Sym) (g : SGroup) : (t.withGroup g).group = g := by cases t; rfl

@[simp] theorem multiplier_withValue (t : Sym) (v : String) : (t.withValue v).multiplier = t.multiplier := by cases t; rfl
@[simp] theorem multiplier_withGroup (t : Sym) (g : SGroup) : (t.withGroup g).multiplier = t.multiplier := by cases t; rfl
@[simp] theorem multiplier_withLength (t : Sym) (n : Int) : (t.withLength n).multiplier = t.multiplier := by cases t; rfl
@[simp] theorem multiplier_withSymbols (t : Sym) (s : Option (List (String × Sym))) : (t.withSymbols s).multiplier = t.multiplier := by cases t; rfl
@[simp] theorem multiplier_withPower (t : Sym) (p : SPow) : (t.withPower p).multiplier = t.multiplier := by cases t; rfl
@[simp] theorem multiplier_withPrevGroup (t : Sym) (g : Option SGroup) : (t.withPrevGroup g).multiplier = t.multiplier := by cases t; rfl
@[simp] theorem multiplier_withFname (t : Sym) (f : Option String) : (t.withFname f).multiplier = t.multiplier := by cases t; rfl
@[simp] theorem multiplier_withParens (t : Sym) (b : Bool) : (t.withParens b).multiplier = t.multiplier := by cases t; rfl
@[simp] theorem multiplier_withArgs (t : Sym) (a : List Sym) : (t.withArgs a).multiplier = t.multiplier := by cases t; rfl
@[simp] theorem multiplier_withMultiplier (t : Sym) (m : Rat) : (t.withMultiplier m).multiplier = m := by cases t; rfl

@[simp] theorem length_withValue (t : Sym) (v : String) : (t.withValue v).length = t.length := by cases t; rfl
@[simp] theorem length_withGroup (t : Sym) (g : SGroup) : (t.withGroup g).length = t.length := by cases t; rfl
@[simp] theorem length_withMultiplier (t : Sym) (m : Rat) : (t.withMultiplier m).length = t.length := by cases t; rfl
@[simp] theorem length_withSymbols (t : Sym) (s : Option (List (String × Sym))) : (t.withSymbols s).length = t.length := by cases t; rfl
@[simp] theorem length_withPower (t : Sym) (p : SPow) : (t.withPower p).length = t.length := by cases t; rfl
@[simp] theorem length_withPrevGroup (t : Sym) (g : Option SGroup) : (t.withPrevGroup g).length = t.length := by cases t; rfl
@[simp] theorem length_withFname (t : Sym) (f : Option String) : (t.withFname f).length = t.length := by cases t; rfl
@[simp] theorem length_withParens (t : Sym) (b : Bool) : (t.withParens b).length = t.length := by cases t; rfl
@[simp] theorem length_withArgs (t : Sym) (a : List Sym) : (t.withArgs a).length = t.length := by cases t; rfl
@[simp] theorem length_withLength (t : Sym) (n : Int) : (t.withLength n).length = n := by cases t; rfl

@[simp] theorem symbols_withValue (t : Sym) (v : String) : (t.withValue v).symbols = t.symbols := by cases t; rfl
@[simp] theorem symbols_withGroup (t : Sym) (g : SGroup) : (t.withGroup g).symbols = t.symbols := by cases t; rfl
@[simp] theorem symbols_withMultiplier (t : Sym) (m : Rat) : (t.withMultiplier m).symbols = t.symbols := by cases t; rfl
@[simp] theorem symbols_withLength (t : Sym) (n : Int) : (t.withLength n).symbols = t.symbols := by cases t; rfl
@[simp] theorem symbols_withPower (t : Sym) (p : SPow) : (t.withPower p).symbols = t.symbols := by cases t; rfl
@[simp] theorem symbols_withPrevGroup (t : Sym) (g : Option SGroup) : (t.withPrevGroup g).symbols = t.symbols := by cases t; rfl
@[simp] theorem symbols_withFname (t : Sym) (f : Option String) : (t.withFname f).symbols = t.symbols := by cases t; rfl
@[simp] theorem symbols_withParens (t : Sym) (b : Bool) : (t.withParens b).symbols = t.symbols := by cases t; rfl
@[simp] theorem symbols_withArgs (t : Sym) (a : List Sym) : (t.withArgs a).symbols = t.symbols := by cases t; rfl
@[simp] theorem symbols_withSymbols (t : Sym) (s : Option (List (String × Sym))) : (t.withSymbols s).symbols = s := by cases t; rfl

@[simp] theorem value_withGroup (t : Sym) (g : SGroup) : (t.withGroup g).value = t.value := by cases t; rfl
@[simp] theorem value_withMultiplier (t : Sym) (m : Rat) : (t.withMultiplier m).value = t.value := by cases t; rfl
@[simp] theorem value_withLength (t : Sym) (n : Int) : (t.withLength n).value = t.value := by cases t; rfl
@[simp] theorem value_withSymbols (t : Sym) (s : Option (List (String × Sym))) : (t.withSymbols s).value = t.value := by cases t; rfl
@[simp] theorem value_withPower (t : Sym) (p : SPow) : (t.withPower p).value = t.value := by cases t; rfl
@[simp] theorem value_withPrevGroup (t : Sym) (g : Option SGroup) : (t.withPrevGroup g).value = t.value := by cases t; rfl
@[simp] theorem value_withFname (t : Sym) (f : Option String) : (t.withFname f).value = t.value := by cases t; rfl
@[simp] theorem value_withParens (t : Sym) (b : Bool) : (t.withParens b).value = t.value := by cases t; rfl
@[simp] theorem value_withArgs (t : Sym) (a : List Sym) : (t.withArgs a).value = t.value := by cases t; rfl
@[simp] theorem value_withValue (t : Sym) (v : String) : (t.withValue v).value = v := by cases t; rfl

@[simp] theorem power_withValue (t : Sym) (v : String) : (t.withValue v).power = t.power := by cases t; rfl
@[simp] theorem power_withGroup (t : Sym) (g : SGroup) : (t.withGroup g).power = t.power := by cases t; rfl
@[simp] theorem power_withMultiplier (t : Sym) (m : Rat) : (t.withMultiplier m).power = t.power := by cases t; rfl
@[simp] theorem power_withLength (t : Sym) (n : Int) : (t.withLength n).power = t.power := by cases t; rfl
@[simp] theorem power_withSymbols (t : Sym) (s : Option (List (String × Sym))) : (t.withSymbols s).power = t.power := by cases t; rfl
@[simp] theorem power_withPrevGroup (t : Sym) (g : Option SGroup) : (t.withPrevGroup g).power = t.power := by cases t; rfl
@[simp] theorem power_withFname (t : Sym) (f : Option String) : (t.withFname f).power = t.power := by cases t; rfl
@[simp] theorem power_withParens (t : Sym) (b : Bool) : (t.withParens b).power = t.power := by cases t; rfl
@[simp] theorem power_withArgs (t : Sym) (a : List Sym) : (t.withArgs a).power = t.power := by cases t; rfl
@[simp] theorem power_withPower (t : Sym) (p : SPow) : (t.withPower p).power = p := by cases t; rfl

@[simp] theorem mass_withMultiplier (t : Sym) (m : Rat) : (t.withMultiplier m).mass = t.mass := by
  cases t
  simp [Sym.withMultiplier, Sym.mass]

theorem childrenMass_getD_lt_mass (t : Sym) :
    childrenMass (t.symbols.getD []) < t.mass := by
  cases t with
  | mk c p syms args =>
    cases syms
    all_goals simp [Sym.symbols, Sym.mass, childrenMassO, childrenMass]
    all_goals omega

/-! ## Conversion and insertion (Symbol.js lines 755-1345) -/

/-- Test isInt(symbol.power) as used by insert: an integral rational power
(isInt of a term power is false). -/
def powIsInt (p : SPow) : Bool :=
  match p with
  | .frac q => q.den == 1
  | .sym _ => false

def isSymPow (p : SPow) : Bool :=
  match p with
  | .sym _ => true
  | .frac _ => false

/-- Rendering of this.power.toDecimal() for key construction; only reached
with a rational power on the verified code paths. -/
def powDec (ext : Ext) (p : SPow) : String :=
  match p with
  | .frac q => ext.powKey q
  | .sym _ => ""

/-- Rendering of this.power.toString() for the PL-into-PL key. -/
def powStrOf (ext : Ext) (p : SPow) : String :=
  match p with
  | .frac q => ext.powStr q
  | .sym _ => ""

/-- Rendering of text(this.power) for the EX-into-PL key. -/
def powText (ext : Ext) (p : SPow) : String :=
  match p with
  | .frac q => ext.powStr q
  | .sym s => ext.textOf s

/-- Symbol.keyForGroup (Symbol.js lines 1286-1345).  In the source branch
for a CP term the hash assigned under a CP parent is immediately
overwritten by the unconditional if/else that follows it, so only the PL
test survives there; the model reproduces the net effect. -/
def keyForGroup (ext : Ext) (t : Sym) (g : SGroup) : String :=
  match t.group with
  | .N => t.value
  | .S => if g == .PL then powDec ext t.power else t.value
  | .P => if g == .PL then powDec ext t.power else t.value
  | .FN => if g == .PL then powDec ext t.power else ext.textHash t
  | .PL =>
    if g == .CB then ext.textHash t
    else if g == .CP then
      (if powIsOne t.power then t.value
       else "(" ++ ext.textHash t ++ ")" ++ POWER_OPERATOR ++ powDec ext t.power)
    else if g == .PL then powStrOf ext t.power
    else t.value
  | .CP => if g == .PL then powDec ext t.power else t.value
  | .CB => if g == .PL then powDec ext t.power else ext.textHash t
  | .EX => if g == .PL then powText ext t.power else ext.textHash t

/-- Symbol.updateHash (Symbol.js lines 1262-1278): N keeps its value, FN
rebuilds it from fname and the argument texts, S and PL are left alone,
and every other group takes the canonical hash. -/
def updateHash (ext : Ext) (t : Sym) : Sym :=
  if t.group == .N then t
  else if t.group == .FN then
    let contents := String.intercalate "," (t.args.map ext.textOf)
    let is_parens := t.fname == some PARENTHESIS
    let fn_name := if is_parens then "" else t.fname.getD ""
    t.withValue (fn_name ++ (if is_parens then contents else "(" ++ contents ++ ")"))
  else if t.group == .S || t.group == .PL then t
  else t.withValue (ext.textHash t)

/-- Conversion to group N (Symbol.js lines 1126-1131): the multiplier goes
through decimal emission, the child map is dropped, and the term is
overwritten by a fresh numeric symbol (for group P the value to the power
is folded in).  The fresh symbol carries no length, previousGroup, fname,
args or flags, so clone leaves those fields of the converted term
untouched (stale), exactly as in the source. -/
def convertN (ext : Ext) (t : Sym) : Sym :=
  let m := ext.dec t.multiplier
  let m2 := if t.group == .P then m * ext.powNum t.value t.power else m
  ((((t.withGroup .N).withValue CONST_HASH).withMultiplier m2).withPower
    (.frac 1)).withSymbols none

/-- Conversion of a group-N term to P (Symbol.js lines 1132-1136): the
value becomes the (absolute, unless imaginary) integer numerator of the
multiplier, the multiplier becomes a unit keeping its sign unless
imaginary, and the group becomes P. -/
def convertP (t : Sym) (imaginary : Bool) : Sym :=
  let v := if imaginary then toString t.multiplier.num
           else toString t.multiplier.num.natAbs
  (toUnitMultiplier (!imaginary) (t.withValue v)).withGroup .P

/-- Conversion to group EX (Symbol.js lines 1110-1125): 1 stays 1; any
other term records its previousGroup, a numeric term moves its numerator
into the value, any other term takes the canonical hash as value, and the
group becomes EX. -/
def convertEX (ext : Ext) (t : Sym) : Sym :=
  if t.group == .N && t.multiplier == 1 then t
  else
    let t1 := if t.group == .EX then t else t.withPrevGroup (some t.group)
    let t2 :=
      if t1.group == .N then
        toUnitMultiplier false (t1.withValue (toString t1.multiplier.num))
      else t1.withValue (ext.textHash t1)
    t2.withGroup .EX

/-- Symbol.setPower (Symbol.js lines 788-822). -/
def setPower (ext : Ext) (t : Sym) (p : SPow) (retainSign : Bool) : Sym :=
  if t.group == .N && t.multiplier == 1 then t
  else if t.group == .EX && !(isSymPow p) then
    let pg := t.previousGroup.getD t.group
    let t1 := (t.withGroup pg).withPrevGroup none
    if t1.group == .N then
      (t1.withMultiplier (ext.valNum t1.value)).withValue CONST_HASH
    else t1.withPower p
  else
    let ps : SPow × Bool := match p with
      | .sym q => if q.group == .N then (SPow.frac q.multiplier, false) else (p, true)
      | .frac q => (SPow.frac q, false)
    let t1 := t.withPower ps.1
    if t1.group == .N then
      (if ps.2 then convertEX ext t1 else convertP t1 retainSign)
    else t1

/-- Symbol.toLinear (Symbol.js lines 887-894). -/
def toLinear (ext : Ext) (t : Sym) : Sym :=
  if powIsOne t.power then t else setPower ext t (.frac 1) false

/-- Conversion to a composite group above FN (Symbol.js lines 1073-1109):
the term is cloned; into CB the clone loses its multiplier, into PL or CP
the head does; an FN head hands its args to the clone; the head is made
linear, the clone becomes the single child under its key, and the group
and length are set. -/
def convertComposite (ext : Ext) (g : SGroup) (t : Sym) : Sym :=
  let cp0 := cloneSym t
  let tc := if g == .CB then (t, toUnitMultiplier false cp0)
            else (toUnitMultiplier false t, cp0)
  let tc2 := if tc.1.group == .FN then
               ((tc.1.withArgs []).withFname none, tc.2.withArgs tc.1.args)
             else tc
  let t3 := toLinear ext tc2.1
  ((t3.withSymbols (some [(keyForGroup ext tc2.2 g, tc2.2)])).withGroup g).withLength 1

/-- Symbol.convert (Symbol.js lines 1072-1138): dispatch on the target
group. -/
def convert (ext : Ext) (t : Sym) (g : SGroup) (imaginary : Bool) : Sym :=
  if g.gtFN then convertComposite ext g t
  else if g == .EX then convertEX ext t
  else if g == .N then convertN ext t
  else if g == .P && t.group == .N then convertP t imaginary
  else t

/-- The is_one guard of distributeMultiplier: power.absEquals(1) when all
is set, power.equals(1) otherwise.  With a term power and all set the
source would raise (Symbol has no absEquals); that path is never taken
on the verified code paths. -/
def distIsOne (all : Bool) (p : SPow) : Bool :=
  if all then
    (match p with
     | .frac q => absEquals q 1
     | .sym _ => false)
  else powIsOne p

mutual
/-- Symbol.distributeMultiplier (Symbol.js lines 1028-1040): when the term
has a child map, its power is (absolutely, when all is set) 1, it is not a
CB and its multiplier is not 1, the multiplier is pushed into every child
(recursively) and the head becomes unit. -/
def distributeMultiplier (all : Bool) (t : Sym) : Sym :=
  if t.symbols.isSome && distIsOne all t.power && !(t.group == .CB) && !(t.multiplier == 1) then
    toUnitMultiplier false
      (t.withSymbols (some (distChildren t.multiplier (t.symbols.getD []))))
  else t
termination_by Sym.mass t
decreasing_by exact childrenMass_getD_lt_mass t

def distChildren (m : Rat) (l : List (String × Sym)) : List (String × Sym) :=
  match l with
  | [] => []
  | (k, c) :: r =>
    (k, distributeMultiplier false (c.withMultiplier (c.multiplier * m)))
      :: distChildren m r
termination_by childrenMass l
decreasing_by
  all_goals simp [childrenMass]
  all_goals omega
end

/-- Symbol.negate (Symbol.js lines 986-991): the multiplier is negated and
a CP or PL term then distributes it. -/
def negate (t : Sym) : Sym :=
  let t1 := t.withMultiplier (-t.multiplier)
  if t1.group == .CP || t1.group == .PL then distributeMultiplier false t1 else t1

/-- The add action of Symbol.insert (Symbol.js lines 1164-1183): on a key
collision the colliding child and the inserted term go to the kernel add;
a zero result removes the child and can demote the composite to the
numeric 0; a fresh key is simply attached. -/
def insertAdd (ext : Ext) (t : Sym) (l : List (String × Sym)) (key : String)
    (existing : Option Sym) (symbol : Sym) : Sym :=
  match existing with
  | some ex =>
    let sum := ext.addK ex symbol
    if sum.multiplier == 0 then
      let t' := (t.withSymbols (some (eraseA (setA l key sum) key))).withLength
        (t.length - 1)
      if t'.length == 0 then (convertN ext t').withMultiplier 0 else t'
    else t.withSymbols (some (setA l key sum))
  | none => (t.withSymbols (some (l ++ [(key, symbol)]))).withLength (t.length + 1)

/-- Common tail of the multiply action of Symbol.insert (Symbol.js lines
1214-1221): the prepared child ch is stored under key unless it is
(absolutely) 1, in which case a negative sign is put back on the head. -/
def insFinish (hd ch : Sym) (l : List (String × Sym)) (key : String) : Sym :=
  if !(isOne true ch) then
    (hd.withSymbols (some (setA l key ch))).withLength (hd.length + 1)
  else if ch.multiplier < 0 then negate (hd.withSymbols (some l))
  else hd.withSymbols (some l)

/-- The multiply action of Symbol.insert (Symbol.js lines 1185-1221) after
the group-P unwrap: a non-EX child hands its whole multiplier to the head
and is stored in unit-multiplier form; an EX child keeps its sign (the
head aggregates only the absolute value) and records parens when negative;
a key collision goes to the kernel multiply, folding a constant result
into the head. -/
def insertMul (ext : Ext) (t : Sym) (l : List (String × Sym)) (key : String)
    (existing : Option Sym) (s1 : Sym) : Sym :=
  let hd := if !(s1.group == .EX) then t.withMultiplier (t.multiplier * s1.multiplier)
            else t.withMultiplier (t.multiplier * |s1.multiplier|)
  let ch := if !(s1.group == .EX) then toUnitMultiplier false s1
            else toUnitMultiplier true (s1.withParens (decide (s1.multiplier < 0)))
  match existing with
  | some ex =>
    let mres := ext.mulK ex ch
    let l' := eraseA l key
    if isConstant mres then
      insFinish ((hd.withMultiplier (hd.multiplier * mres.multiplier)).withLength
        (hd.length - 1)) (Sym.num 1) l' key
    else insFinish (hd.withLength (hd.length - 1)) mres l' key
  | none => insFinish hd ch l key

/-- Final cleanup of Symbol.insert (Symbol.js lines 1224-1231): a composite
whose length reached 0 demotes to N, and a CP or CB rehashes. -/
def insClean (ext : Ext) (t1 : Sym) : Sym :=
  let t4 := if t1.length == 0 then convertN ext t1 else t1
  if t4.group == .CP || t4.group == .CB then updateHash ext t4 else t4

/-- Symbol.insert (Symbol.js lines 1154-1235), the central cleanup and prep
routine for attaching (action add) and combining (action multiply) a child
into a composite. -/
def insert (ext : Ext) (t : Sym) (symbol : Sym) (action : String) : Sym :=
  match t.symbols with
  | none => t
  | some l =>
    if t.group.gtFN then
      let key := keyForGroup ext symbol t.group
      let existing := lookupA l key
      insClean ext
        (if action == "add" then insertAdd ext t l key existing symbol
         else
           insertMul ext t l key existing
             (if symbol.group == .P && powIsInt symbol.power then convertN ext symbol
              else symbol))
    else t

/-- Child lookup through the optional child map. -/
def lookupChild (t : Sym) (key : String) : Option Sym :=
  match t.symbols with
  | none => none
  | some l => lookupA l key

/-! ## Lemmas about the association-list model of JS objects -/

theorem lookupA_eq_none_iff (l : List (String × Sym)) (k : String) :
    lookupA l k = none ↔ k ∉ keysA l := by
  induction l with
  | nil => simp [lookupA, keysA]
  | cons kv r ih =>
    obtain ⟨k1, s⟩ := kv
    by_cases h : k1 = k
    · subst h
      simp [lookupA, keysA]
    · simp [lookupA, keysA, h, beq_iff_eq, ih]
      tauto

theorem setA_append_of_not_mem (l : List (String × Sym)) (k : String) (v : Sym)
    (h : k ∉ keysA l) : setA l k v = l ++ [(k, v)] := by
  induction l with
  | nil => simp [setA]
  | cons kv r ih =>
    obtain ⟨k1, s⟩ := kv
    simp only [keysA, List.map_cons, List.mem_cons] at h
    push_neg at h
    simp [setA, beq_iff_eq, Ne.symm h.1, ih (by simpa [keysA] using h.2)]

theorem lookupA_erase_setA_self (l : List (String × Sym)) (k : String) (v : Sym)
    (h : (keysA l).Nodup) : lookupA (eraseA (setA l k v) k) k = none := by
  induction l with
  | nil => simp [setA, eraseA, lookupA]
  | cons kv r ih =>
    obtain ⟨k1, s⟩ := kv
    simp only [keysA, List.map_cons, List.nodup_cons] at h
    by_cases hk : k1 = k
    · subst hk
      simp only [setA, beq_self_eq_true, if_true, eraseA]
      rw [lookupA_eq_none_iff]
      exact h.1
    · simp [setA, eraseA, lookupA, beq_iff_eq, hk, ih h.2]

/-! ## Preservation lemmas for convertN and updateHash -/

@[simp] theorem group_convertN (ext : Ext) (t : Sym) :
    (convertN ext t).group = .N := by simp [convertN]

@[simp] theorem symbols_convertN (ext : Ext) (t : Sym) :
    (convertN ext t).symbols = none := by simp [convertN]

@[simp] theorem length_convertN (ext : Ext) (t : Sym) :
    (convertN ext t).length = t.length := by simp [convertN]

theorem multiplier_convertN (ext : Ext) (t : Sym) :
    (convertN ext t).multiplier =
      if t.group == .P then ext.dec t.multiplier * ext.powNum t.value t.power
      else ext.dec t.multiplier := by
  simp [convertN]

@[simp] theorem group_updateHash (ext : Ext) (t : Sym) :
    (updateHash ext t).group = t.group := by
  unfold updateHash
  repeat' split
  all_goals simp

@[simp] theorem length_updateHash (ext : Ext) (t : Sym) :
    (updateHash ext t).length = t.length := by
  unfold updateHash
  repeat' split
  all_goals simp

@[simp] theorem symbols_updateHash (ext : Ext) (t : Sym) :
    (updateHash ext t).symbols = t.symbols := by
  unfold updateHash
  repeat' split
  all_goals simp

@[simp] theorem multiplier_updateHash (ext : Ext) (t : Sym) :
    (updateHash ext t).multiplier = t.multiplier := by
  unfold updateHash
  repeat' split
  all_goals simp

theorem rehash_length (ext : Ext) (x : Sym) :
    (if (x.group == SGroup.CP || x.group == SGroup.CB) = true
      then updateHash ext x else x).length = x.length := by
  split
  · simp
  · rfl

theorem rehash_symbols (ext : Ext) (x : Sym) :
    (if (x.group == SGroup.CP || x.group == SGroup.CB) = true
      then updateHash ext x else x).symbols = x.symbols := by
  split
  · simp
  · rfl

theorem rehash_multiplier (ext : Ext) (x : Sym) :
    (if (x.group == SGroup.CP || x.group == SGroup.CB) = true
      then updateHash ext x else x).multiplier = x.multiplier := by
  split
  · simp
  · rfl

theorem rehash_group (ext : Ext) (x : Sym) :
    (if (x.group == SGroup.CP || x.group == SGroup.CB) = true
      then updateHash ext x else x).group = x.group := by
  split
  · simp
  · rfl

@[simp] theorem length_insClean (ext : Ext) (t1 : Sym) :
    (insClean ext t1).length = t1.length := by
  unfold insClean
  split
  · exact (rehash_length ext _).trans (by simp)
  · exact rehash_length ext t1

theorem symbols_insClean (ext : Ext) (t1 : Sym) (h : (t1.length == 0) = false) :
    (insClean ext t1).symbols = t1.symbols := by
  unfold insClean
  split
  · rename_i hc
    rw [h] at hc
    exact (Bool.false_ne_true hc).elim
  · exact rehash_symbols ext t1

theorem symbols_insClean_zero (ext : Ext) (t1 : Sym) (h : (t1.length == 0) = true) :
    (insClean ext t1).symbols = none := by
  unfold insClean
  split
  · exact (rehash_symbols ext _).trans (by simp)
  · rename_i hc
    rw [h] at hc
    exact (hc rfl).elim

theorem multiplier_insClean (ext : Ext) (t1 : Sym) (h : (t1.length == 0) = false) :
    (insClean ext t1).multiplier = t1.multiplier := by
  unfold insClean
  split
  · rename_i hc
    rw [h] at hc
    exact (Bool.false_ne_true hc).elim
  · exact rehash_multiplier ext t1

theorem group_insClean (ext : Ext) (t1 : Sym) (h : (t1.length == 0) = false) :
    (insClean ext t1).group = t1.group := by
  unfold insClean
  split
  · rename_i hc
    rw [h] at hc
    exact (Bool.false_ne_true hc).elim
  · exact rehash_group ext t1

/-! ## Claim-side definitions

The next definitions phrase the words of the specification, to be compared
with the definitions translated from the source. -/

/-- Claim-side reading of the spec sentence for C1: the children maps agree
key-wise, i.e. they have the same keys and equal (in the sense of
Symbol.equals) child terms at each key.  Terms without a child map agree
exactly when neither has one. -/
def childrenAgree (a b : Sym) : Bool :=
  match a.symbols, b.symbols with
  | none, none => true
  | some la, some lb =>
    (keysA la).all (fun k => (lookupA lb k).isSome)
      && (keysA lb).all (fun k => (lookupA la k).isSome)
      && la.all (fun kc =>
          match lookupA lb kc.1 with
          | some d => symEquals kc.2 d
          | none => false)
  | _, _ => false

/-! ## Theorems for C1 and C4 -/

mutual
/-- Claim-side shape of the source clone: the identity on every field
except the parens flag, which is reset to false, recursively through the
power and the children; args are carried over unchanged. -/
def clearParens : Sym → Sym
  | .mk c p syms args =>
    .mk { c with parens := false } (clearParensP p) (clearParensC syms) args

def clearParensP : SPow → SPow
  | .frac q => .frac q
  | .sym s => .sym (clearParens s)

def clearParensC : Option (List (String × Sym)) → Option (List (String × Sym))
  | none => none
  | some l => some (clearParensL l)

def clearParensL : List (String × Sym) → List (String × Sym)
  | [] => []
  | (k, s) :: r => (k, clearParens s) :: clearParensL r
end

mutual
theorem cloneSym_eq : (t : Sym) → cloneSym t = clearParens t
  | .mk c p syms args => by
    simp [cloneSym, clearParens, clonePow_eq p, cloneChildren_eq syms]

theorem clonePow_eq : (p : SPow) → clonePow p = clearParensP p
  | .frac _ => rfl
  | .sym s => by simp [clonePow, clearParensP, cloneSym_eq s]

theorem cloneChildren_eq :
    (o : Option (List (String × Sym))) → cloneChildren o = clearParensC o
  | none => rfl
  | some l => by simp [cloneChildren, clearParensC, cloneList_eq l]

theorem cloneList_eq : (l : List (String × Sym)) → cloneList l = clearParensL l
  | [] => rfl
  | (_, s) :: r => by simp [cloneList, clearParensL, cloneSym_eq s, cloneList_eq r]
end

mutual
theorem symEquals_clone : (t : Sym) → symEquals (cloneSym t) t = true
  | .mk c p syms args => by
    simp [cloneSym, symEquals, powEquals_clone p]

theorem powEquals_clone : (p : SPow) → powEquals (clonePow p) p = true
  | .frac _ => by simp [clonePow, powEquals]
  | .sym s => by simp [clonePow, powEquals, symEquals_clone s]
end

mutual
theorem symEquals_refl : (t : Sym) → symEquals t t = true
  | .mk _ p _ _ => by simp [symEquals, powEquals_refl p]

theorem powEquals_refl : (p : SPow) → powEquals p p = true
  | .frac _ => by simp [powEquals]
  | .sym s => by simp [powEquals, symEquals_refl s]
end

/-- C4 counterexample: a term carrying the parens flag, as insert sets it
at Symbol.js line 1197 on a negative EX child of a CB, is not structurally
identical to its clone: the property list of Symbol.clone omits parens, so
the clone has parens reset to false, even though Symbol.equals still
accepts the pair. -/
theorem clone_drops_parens_cx :
    (cloneSym ((Sym.var "x").withParens true)).core.parens = false
    ∧ ((Sym.var "x").withParens true).core.parens = true
    ∧ cloneSym ((Sym.var "x").withParens true) ≠ (Sym.var "x").withParens true := by
  refine ⟨rfl, rfl, fun hcon => ?_⟩
  have h2 := congrArg (fun t => t.core.parens) hcon
  simp [cloneSym, Sym.var, Sym.withParens, Sym.core] at h2

/-- C4 (amended): clone(t) is accepted by equals, which never inspects the
parens flag, and is structurally identical to t in every modelled field
except parens: the clone is exactly t with the parens flag recursively
reset to false, because the property list of Symbol.clone omits parens
while children, power and multiplier are rebuilt recursively (the deep
copy) and the listed plain fields are copied. -/
theorem clone_faithful (t : Sym) :
    symEquals (cloneSym t) t = true ∧ cloneSym t = clearParens t :=
  ⟨symEquals_clone t, cloneSym_eq t⟩

/-- Sample terms: x, x^2 and x^3 as S-group atoms with powers 1, 2, 3. -/
def symX : Sym := Sym.var "x"

def symXsq : Sym := (Sym.var "x").withPower (.frac 2)

def symXcb : Sym := (Sym.var "x").withPower (.frac 3)

/-- The term x + x^2 in its PL representation: group PL, value the shared
base "x", children keyed by the decimal of the power.  This is the shape
the kernel builds for a sum of same-base powers; note updateHash
(Symbol.js lines 1262-1278) never recomputes the value of a PL term, so
the value stays the base name whatever the children are. -/
def plA : Sym :=
  .mk { group := .PL, value := "x", multiplier := 1, length := 2,
        previousGroup := none, fname := none, imaginary := false,
        isInfinity := false, isUnit := false, isConversion := false,
        scientific := false, parens := false }
      (.frac 1) (some [("1", symX), ("2", symXsq)]) []

/-- The term x + x^3 in its PL representation. -/
def plB : Sym :=
  .mk { group := .PL, value := "x", multiplier := 1, length := 2,
        previousGroup := none, fname := none, imaginary := false,
        isInfinity := false, isUnit := false, isConversion := false,
        scientific := false, parens := false }
      (.frac 1) (some [("1", symX), ("3", symXcb)]) []

/-- C1 counterexample: the PL terms x + x^2 and x + x^3 agree on value,
group, power and multiplier, so Symbol.equals accepts them, yet their
children maps do not agree key-wise (keys "2" versus "3").  The claimed
equivalence fails in the forward direction: equals never inspects the
children. -/
theorem equals_ignores_children_cx :
    symEquals plA plB = true ∧ childrenAgree plA plB = false := by
  constructor <;> rfl

/-- C1 amended: Symbol.equals holds exactly when value, power, multiplier
and group coincide; the children maps are not compared. -/
theorem equals_iff_four_fields (a b : Sym) :
    symEquals a b = true ↔
      (a.value = b.value ∧ powEquals a.power b.power = true ∧
        a.multiplier = b.multiplier ∧ a.group = b.group) := by
  cases a with
  | mk c1 p1 s1 g1 =>
    cases b with
    | mk c2 p2 s2 g2 =>
      simp [symEquals, Sym.value, Sym.power, Sym.multiplier, Sym.group, Sym.core,
        and_assoc]

/-- Witness for the amended C1 statement at the concrete pair (x, x): both
directions evaluate on actual terms. -/
theorem equals_iff_four_fields_witness :
    symEquals symX symX = true :=
  (equals_iff_four_fields symX symX).mpr ⟨rfl, by rfl, rfl, rfl⟩

/-- C3: after inserting a term into a composite with action add, a child
whose resulting multiplier becomes 0 is removed from the children map and
the length is decremented; and when the child count falls to 0 the
composite demotes to group N with multiplier 0.  The kernel add invoked on
the collision is the external addK; the decimal roundtrip hypothesis fixes
that Frac emits 0 as 0. -/
theorem insert_add_zero_child_removed (ext : Ext) (t s ex : Sym)
    (l : List (String × Sym))
    (hsy : t.symbols = some l)
    (hg : t.group.gtFN = true)
    (hnd : (keysA l).Nodup)
    (hex : lookupA l (keyForGroup ext s t.group) = some ex)
    (hz : (ext.addK ex s).multiplier = 0)
    (hdec : ext.dec 0 = 0) :
    lookupChild (insert ext t s "add") (keyForGroup ext s t.group) = none ∧
      (insert ext t s "add").length = t.length - 1 ∧
      (t.length = 1 →
        (insert ext t s "add").group = .N ∧
        (insert ext t s "add").multiplier = 0 ∧
        (insert ext t s "add").symbols = none) := by
  have hr : insert ext t s "add" = insClean ext
      (let t' := (t.withSymbols (some (eraseA
          (setA l (keyForGroup ext s t.group) (ext.addK ex s))
          (keyForGroup ext s t.group)))).withLength (t.length - 1)
       if t'.length == 0 then (convertN ext t').withMultiplier 0 else t') := by
    unfold insert insertAdd
    rw [hsy]
    simp [hg, hex, hz]
  by_cases hlen : t.length = 1
  · have h0 : ((t.length - 1 : Int) == 0) = true := by
      simp
      omega
    rw [hr]
    simp only [length_withLength, h0, if_true, ite_true]
    unfold insClean
    simp [lookupChild, hdec, multiplier_convertN, hlen]
  · have h0 : ((t.length - 1 : Int) == 0) = false := by
      simp
      omega
    rw [hr]
    simp only [length_withLength, h0, Bool.false_eq_true, if_false, ite_false]
    refine ⟨?_, ?_, fun hc => absurd hc hlen⟩
    · unfold lookupChild
      rw [symbols_insClean ext _ (by simp only [length_withLength]; exact h0)]
      simp [lookupA_erase_setA_self l _ _ hnd]
    · simp

/-! ## Concrete instances for counterexamples and witnesses -/

/-- Trivial instantiation of the external collaborators: hashes are the
value string, decimal roundtrips are exact, the kernel add returns 0 and
the kernel multiply returns its first argument. -/
def extT : Ext where
  textHash := fun s => s.value
  textOf := fun s => s.value
  powKey := fun q => toString q.num
  powStr := fun q => toString q.num
  dec := fun q => q
  valNum := fun _ => 0
  powNum := fun _ _ => 1
  addK := fun _ _ => Sym.num 0
  mulK := fun a _ => a

/-- A CB product term with the single child x under key "x". -/
def cbT : Sym :=
  .mk { group := .CB, value := "x", multiplier := 1, length := 1,
        previousGroup := none, fname := none, imaginary := false,
        isInfinity := false, isUnit := false, isConversion := false,
        scientific := false, parens := false }
      (.frac 1) (some [("x", symX)]) []

/-- A CP sum term with the single child x under key "x". -/
def cpT : Sym :=
  .mk { group := .CP, value := "x", multiplier := 1, length := 1,
        previousGroup := none, fname := none, imaginary := false,
        isInfinity := false, isUnit := false, isConversion := false,
        scientific := false, parens := false }
      (.frac 1) (some [("x", symX)]) []

/-- The term -2*y^z: group EX with previousGroup S, term power z and
multiplier -2, the shape the kernel pow builds for a symbolic exponent on
the base y, scaled by -2. -/
def sEXneg : Sym :=
  .mk { group := .EX, value := "y", multiplier := -2, length := 0,
        previousGroup := some .S, fname := none, imaginary := false,
        isInfinity := false, isUnit := false, isConversion := false,
        scientific := false, parens := false }
      (.sym (Sym.var "z")) none []

/-- Witness instance for C3: inserting x into the CP composite holding the
single child x, with a kernel add that returns 0, removes the child and
demotes the composite to the numeric 0. -/
theorem insert_add_zero_child_removed_witness :
    lookupChild (insert extT cpT symX "add") (keyForGroup extT symX cpT.group) = none ∧
      (insert extT cpT symX "add").length = cpT.length - 1 ∧
      (cpT.length = 1 →
        (insert extT cpT symX "add").group = .N ∧
        (insert extT cpT symX "add").multiplier = 0 ∧
        (insert extT cpT symX "add").symbols = none) :=
  insert_add_zero_child_removed extT cpT symX symX [("x", symX)] rfl rfl
    (by simp [keysA]) rfl rfl rfl

/-- C2 counterexample: inserting the EX term -2*y^z into a CB with the
multiply action stores the child with multiplier -1, not 1.  The source
deliberately keeps the sign on an EX child (toUnitMultiplier(true) at
Symbol.js line 1199) and moves only the absolute value to the head, so the
claimed invariant that every CB child has multiplier 1 fails, as does the
claim that the sign is carried on the CB head. -/
theorem cb_insert_negative_ex_child_cx :
    (lookupChild (insert extT cbT sEXneg "multiply") "y").map Sym.multiplier
        = some (-1) ∧
      ((-1 : Rat) = 1 → False) := by
  constructor
  · rfl
  · intro h
    exact absurd h (by norm_num)

theorem symbols_insFinish (hd ch : Sym) (l : List (String × Sym)) (key : String)
    (hcb : (hd.group == SGroup.CP || hd.group == SGroup.PL) = false) :
    (insFinish hd ch l key).symbols =
      some (if isOne true ch then l else setA l key ch) := by
  unfold insFinish
  by_cases hone : isOne true ch = true
  · simp only [hone, Bool.not_true, Bool.false_eq_true, if_false, ite_true, ite_false]
    split
    · simp [negate, hcb]
    · simp
  · simp only [Bool.not_eq_true] at hone
    simp [hone]

theorem head_insFinish (hd ch : Sym) (l : List (String × Sym)) (key : String)
    (hone : isOne true ch = false) :
    (insFinish hd ch l key).multiplier = hd.multiplier ∧
      (insFinish hd ch l key).length = hd.length + 1 ∧
      (insFinish hd ch l key).group = hd.group := by
  unfold insFinish
  simp [hone]

/-- C2 amended: children stored into a CB by insert with the multiply
action carry multiplier 1 when they are not of group EX (sign and
magnitude go to the head), while an EX child keeps its sign as a
multiplier of -1 or 1 and only the absolute value is aggregated into the
head; a composite conversion to CB likewise stores its single child with
multiplier exactly 1. -/
theorem cb_children_unit_multiplier_amended (ext : Ext) :
    (∀ t p, p ∈ (convertComposite ext .CB t).symbols.getD [] →
      p.2.multiplier = 1)
    ∧ (∀ t s l p, t.group = .CB → t.symbols = some l →
        lookupA l (keyForGroup ext s .CB) = none →
        p ∈ (insert ext t s "multiply").symbols.getD [] →
        p ∈ l ∨ p.2.multiplier =
          (if s.group == .EX && decide (s.multiplier < 0) then -1 else 1))
    ∧ (∀ t s l, t.group = .CB → t.symbols = some l →
        lookupA l (keyForGroup ext s .CB) = none →
        ¬(s.group = .P ∧ powIsInt s.power = true) →
        isOne true (if s.group == .EX then
            toUnitMultiplier true (s.withParens (decide (s.multiplier < 0)))
          else toUnitMultiplier false s) = false →
        0 ≤ t.length →
        (insert ext t s "multiply").multiplier =
          t.multiplier * (if s.group == .EX then |s.multiplier| else s.multiplier)) := by
  have hch : ∀ s1 : Sym,
      (if !(s1.group == SGroup.EX) then toUnitMultiplier false s1
        else toUnitMultiplier true (s1.withParens (decide (s1.multiplier < 0)))).multiplier
        = (if s1.group == SGroup.EX && decide (s1.multiplier < 0) then -1 else 1) := by
    intro s1
    by_cases hEX : (s1.group == SGroup.EX) = true
    · simp only [hEX, Bool.not_true, Bool.false_eq_true, if_false, Bool.true_and]
      simp [toUnitMultiplier]
    · simp only [Bool.not_eq_true] at hEX
      simp [hEX, toUnitMultiplier]
  refine ⟨?_, ?_, ?_⟩
  · intro t p hp
    simp only [convertComposite, beq_self_eq_true, if_true, ite_true] at hp
    split at hp
    all_goals
      simp only [symbols_withLength, symbols_withGroup, symbols_withSymbols,
        Option.getD_some, List.mem_singleton] at hp
    all_goals subst hp
    all_goals simp [toUnitMultiplier, Bool.and_false]
  · intro t s l p hg hsy hfresh hp
    have hgt : t.group.gtFN = true := by rw [hg]; rfl
    have hnm : keyForGroup ext s t.group = keyForGroup ext s .CB := by rw [hg]
    have hkm : keyForGroup ext s .CB ∉ keysA l := (lookupA_eq_none_iff l _).1 hfresh
    have hs1g : (if s.group == .P && powIsInt s.power then convertN ext s else s).group
        = SGroup.EX ↔ s.group = SGroup.EX := by
      split
      case _ h =>
        simp only [Bool.and_eq_true, beq_iff_eq] at h
        simp [h.1]
      case _ h => exact Iff.rfl
    unfold insert at hp
    rw [hsy] at hp
    simp only [hgt, if_true, ite_true, hnm, hfresh] at hp
    rw [show ("multiply" == "add") = false from rfl] at hp
    simp only [Bool.false_eq_true, if_false, ite_false] at hp
    set s1 := (if s.group == .P && powIsInt s.power then convertN ext s else s) with hs1def
    set M := insertMul ext t l (keyForGroup ext s SGroup.CB) none s1 with hMdef
    have hMsym : M.symbols = some (if isOne true (if !(s1.group == SGroup.EX)
        then toUnitMultiplier false s1
        else toUnitMultiplier true (s1.withParens (decide (s1.multiplier < 0)))) then l
      else setA l (keyForGroup ext s SGroup.CB)
        (if !(s1.group == SGroup.EX) then toUnitMultiplier false s1
         else toUnitMultiplier true (s1.withParens (decide (s1.multiplier < 0))))) := by
      rw [hMdef]
      unfold insertMul
      apply symbols_insFinish
      split
      all_goals simp [hg]
    by_cases hM0 : (M.length == 0) = true
    case pos =>
      rw [symbols_insClean_zero ext M hM0] at hp
      simp at hp
    case neg =>
      have hps : p ∈ (if isOne true (if !(s1.group == SGroup.EX)
          then toUnitMultiplier false s1
          else toUnitMultiplier true (s1.withParens (decide (s1.multiplier < 0)))) then l
        else setA l (keyForGroup ext s SGroup.CB)
          (if !(s1.group == SGroup.EX) then toUnitMultiplier false s1
           else toUnitMultiplier true (s1.withParens (decide (s1.multiplier < 0))))) := by
        rw [symbols_insClean ext M (by simpa using hM0), hMsym] at hp
        simpa using hp
      by_cases hone2 : isOne true (if !(s1.group == SGroup.EX)
          then toUnitMultiplier false s1
          else toUnitMultiplier true (s1.withParens (decide (s1.multiplier < 0)))) = true
      · rw [if_pos hone2] at hps
        exact Or.inl hps
      · rw [if_neg hone2] at hps
        rw [setA_append_of_not_mem l _ _ hkm] at hps
        rcases List.mem_append.1 hps with hmem | hmem
        · exact Or.inl hmem
        · refine Or.inr ?_
          rw [List.mem_singleton] at hmem
          subst hmem
          rw [hch s1]
          by_cases hEX : s.group = SGroup.EX
          · have : s1 = s := by
              rw [hs1def]
              simp [hEX]
            rw [this]
          · have hgne : (s1.group == SGroup.EX) = false := by
              rw [Bool.eq_false_iff]
              intro hc
              exact hEX (hs1g.1 (by simpa using hc))
            have hgne2 : (s.group == SGroup.EX) = false := by
              simp [hEX]
            simp [hgne, hgne2]
  · intro t s l hg hsy hfresh hnp hone hlen
    have hgt : t.group.gtFN = true := by rw [hg]; rfl
    have hnm : keyForGroup ext s t.group = keyForGroup ext s .CB := by rw [hg]
    have hs1 : (if s.group == .P && powIsInt s.power then convertN ext s else s) = s := by
      split
      case _ h =>
        simp only [Bool.and_eq_true, beq_iff_eq] at h
        exact absurd ⟨h.1, h.2⟩ hnp
      case _ h => rfl
    have hone' : isOne true (if !(s.group == SGroup.EX) then toUnitMultiplier false s
        else toUnitMultiplier true (s.withParens (decide (s.multiplier < 0)))) = false := by
      by_cases hEX : (s.group == SGroup.EX) = true
      · simpa [hEX] using hone
      · simp only [Bool.not_eq_true] at hEX
        simpa [hEX] using hone
    unfold insert
    rw [hsy]
    simp only [hgt, if_true, ite_true, hnm, hfresh]
    rw [show ("multiply" == "add") = false from rfl]
    simp only [Bool.false_eq_true, if_false, ite_false, hs1]
    set hd := if !(s.group == SGroup.EX) then t.withMultiplier (t.multiplier * s.multiplier)
      else t.withMultiplier (t.multiplier * |s.multiplier|) with hddef
    have hhd : hd.multiplier =
        t.multiplier * (if s.group == .EX then |s.multiplier| else s.multiplier) ∧
        hd.length = t.length ∧ hd.group = t.group := by
      rw [hddef]
      by_cases hEX : (s.group == SGroup.EX) = true
      · simp [hEX]
      · simp only [Bool.not_eq_true] at hEX
        simp [hEX]
    have hM := head_insFinish hd (if !(s.group == SGroup.EX) then toUnitMultiplier false s
      else toUnitMultiplier true (s.withParens (decide (s.multiplier < 0)))) l
      (keyForGroup ext s SGroup.CB) hone'
    have hne : (((insFinish hd (if !(s.group == SGroup.EX) then toUnitMultiplier false s
        else toUnitMultiplier true (s.withParens (decide (s.multiplier < 0)))) l
        (keyForGroup ext s SGroup.CB)).length == 0) = false) := by
      rw [hM.2.1, hhd.2.1, beq_eq_false_iff_ne]
      omega
    unfold insertMul
    rw [multiplier_insClean ext _ hne, hM.1, hhd.1]

/-- Witness for the amended C2 statement: inserting the plain variable w
into the CB holding x stores a child, and the theorem places it either
among the old children or at multiplier 1 (w is not EX). -/
theorem cb_children_unit_multiplier_amended_witness :
    ("w", toUnitMultiplier false (Sym.var "w")) ∈ [("x", symX)] ∨
      (toUnitMultiplier false (Sym.var "w")).multiplier =
        (if (Sym.var "w").group == .EX && decide ((Sym.var "w").multiplier < 0)
          then -1 else 1) :=
  (cb_children_unit_multiplier_amended extT).2.1 cbT (Sym.var "w") [("x", symX)]
    ("w", toUnitMultiplier false (Sym.var "w")) rfl rfl rfl
    (by
      show ("w", toUnitMultiplier false (Sym.var "w")) ∈
        [("x", symX), ("w", toUnitMultiplier false (Sym.var "w"))]
      exact List.mem_cons_of_mem _ (List.mem_cons_self _ _))

/-! ## Theorems for C10 -/

theorem distChildren_eq_map (m : Rat) (l : List (String × Sym)) :
    distChildren m l = l.map (fun kc =>
      (kc.1, distributeMultiplier false (kc.2.withMultiplier (kc.2.multiplier * m)))) := by
  induction l with
  | nil => simp [distChildren]
  | cons kc r ih =>
    obtain ⟨k, c⟩ := kc
    simp [distChildren, ih]

theorem distributeMultiplier_atom (c : Sym) (hs : c.symbols = none) :
    distributeMultiplier false c = c := by
  rw [distributeMultiplier]
  simp [hs]

/-- C10: on a CP or PL term with power 1 and non-unit multiplier, negate
negates the multiplier and then eagerly distributes it: afterwards the
head multiplier is exactly 1 (absolute value 1), and every child has been
multiplied by the negated former head multiplier and recursively
distributed; a child with no child map of its own simply ends at its old
multiplier times the negated former head multiplier.  In the boundary
case of multiplier -1 the negation alone already makes the head 1, the
distribution guard sees a unit multiplier, and the children stay
untouched (equivalently, they are multiplied by 1). -/
theorem negate_distributes_cp_pl (t : Sym) (l : List (String × Sym))
    (hg : t.group = .CP ∨ t.group = .PL)
    (hp : t.power = .frac 1)
    (_hm1 : t.multiplier ≠ 1)
    (hsy : t.symbols = some l) :
    (negate t).multiplier = 1 ∧
      (t.multiplier ≠ -1 →
        (negate t).symbols = some (l.map (fun kc => (kc.1,
          distributeMultiplier false
            (kc.2.withMultiplier (kc.2.multiplier * (-t.multiplier))))))
        ∧ ∀ kc ∈ l, kc.2.symbols = none →
            (kc.1, kc.2.withMultiplier (kc.2.multiplier * (-t.multiplier)))
              ∈ (negate t).symbols.getD []) ∧
      (t.multiplier = -1 → negate t = t.withMultiplier 1) := by
  have hgcond : ((t.withMultiplier (-t.multiplier)).group == SGroup.CP
      || (t.withMultiplier (-t.multiplier)).group == SGroup.PL) = true := by
    rcases hg with h | h
    all_goals simp [h]
  have hneg : negate t = distributeMultiplier false (t.withMultiplier (-t.multiplier)) := by
    unfold negate
    rcases hg with h | h
    all_goals simp [h]
  by_cases hm2 : t.multiplier = -1
  · have hone : (-t.multiplier : Rat) = 1 := by rw [hm2]; norm_num
    have hstop : distributeMultiplier false (t.withMultiplier (-t.multiplier))
        = t.withMultiplier (-t.multiplier) := by
      rw [distributeMultiplier]
      simp [hone]
    refine ⟨?_, fun hc => absurd hm2 hc, fun _ => ?_⟩
    · rw [hneg, hstop]
      simp [hone]
    · rw [hneg, hstop, hone]
  · have hfire : distributeMultiplier false (t.withMultiplier (-t.multiplier)) =
        toUnitMultiplier false ((t.withMultiplier (-t.multiplier)).withSymbols
          (some (distChildren (-t.multiplier) l))) := by
      have h1 : (t.group == SGroup.CB) = false := by
        rcases hg with h | h
        all_goals simp [h]
      have h2 : ((-t.multiplier : Rat) == 1) = false := by
        simp only [beq_eq_false_iff_ne, ne_eq]
        intro hc
        exact hm2 (by linarith)
      have hcond : ((t.withMultiplier (-t.multiplier)).symbols.isSome &&
          distIsOne false (t.withMultiplier (-t.multiplier)).power &&
          !((t.withMultiplier (-t.multiplier)).group == SGroup.CB) &&
          !((t.withMultiplier (-t.multiplier)).multiplier == 1)) = true := by
        simp [distIsOne, hp, powIsOne, powEqualsQ, h1, h2, hsy]
      rw [distributeMultiplier, hcond]
      simp [hsy]
    refine ⟨?_, fun _ => ⟨?_, ?_⟩, fun hc => absurd hc hm2⟩
    · rw [hneg, hfire]
      simp [toUnitMultiplier, Bool.and_false]
    · rw [hneg, hfire]
      simp [toUnitMultiplier, distChildren_eq_map]
    · intro kc hmem hatom
      rw [hneg, hfire]
      simp only [toUnitMultiplier, symbols_withMultiplier, symbols_withSymbols,
        Option.getD_some, distChildren_eq_map]
      refine List.mem_map.2 ⟨kc, hmem, ?_⟩
      rw [distributeMultiplier_atom _ (by simp [hatom])]

/-- A CP sum term 3*(x + y) with lazy head multiplier 3. -/
def cpT3 : Sym :=
  .mk { group := .CP, value := "x+y", multiplier := 3, length := 2,
        previousGroup := none, fname := none, imaginary := false,
        isInfinity := false, isUnit := false, isConversion := false,
        scientific := false, parens := false }
      (.frac 1) (some [("x", symX), ("y", Sym.var "y")]) []

/-- Witness for C10 at the concrete term 3*(x+y). -/
theorem negate_distributes_cp_pl_witness :
    (negate cpT3).multiplier = 1 ∧
      (cpT3.multiplier ≠ -1 →
        (negate cpT3).symbols = some ([("x", symX), ("y", Sym.var "y")].map (fun kc => (kc.1,
          distributeMultiplier false
            (kc.2.withMultiplier (kc.2.multiplier * (-cpT3.multiplier))))))
        ∧ ∀ kc ∈ [("x", symX), ("y", Sym.var "y")], kc.2.symbols = none →
            (kc.1, kc.2.withMultiplier (kc.2.multiplier * (-cpT3.multiplier)))
              ∈ (negate cpT3).symbols.getD []) ∧
      (cpT3.multiplier = -1 → negate cpT3 = cpT3.withMultiplier 1) :=
  negate_distributes_cp_pl cpT3 [("x", symX), ("y", Sym.var "y")]
    (Or.inl rfl) rfl (by decide) rfl

/-! ## Theorems for C9 -/

/-- Symbol.lessThan (Symbol.js lines 1422-1424): the multiplier is compared
directly against the argument with no constancy check (Frac.lessThan is
modelled from the spec as the rational order). -/
def lessThan (t : Sym) (n : Rat) : Bool := decide (t.multiplier < n)

/-- Symbol.greaterThan (Symbol.js lines 1426-1437): both sides must be
constant in the isConstant(true) sense, otherwise false; only then are the
multipliers compared. -/
def greaterThan (t : Sym) (n : Sym) : Bool :=
  if !(isConstantAll t) || !(isConstantAll n) then false
  else decide (n.multiplier < t.multiplier)

/-- C9: greaterThan returns false whenever either side fails the numeric
constancy check, whereas lessThan never checks constancy and just compares
the multiplier (coefficient) against the argument, so a symbolic term can
compare true. -/
theorem lessThan_greaterThan_asymmetry :
    (∀ t n : Sym, isConstantAll t = false ∨ isConstantAll n = false →
      greaterThan t n = false)
    ∧ (∀ (t : Sym) (q : Rat), lessThan t q = true ↔ t.multiplier < q)
    ∧ (isConstantAll symX = false ∧ lessThan symX 2 = true) := by
  refine ⟨?_, ?_, by decide, by decide⟩
  · intro t n h
    rcases h with h | h
    all_goals simp [greaterThan, h]
  · intro t q
    simp [lessThan]

/-- Witness for C9 at the concrete symbolic pair (x, y). -/
theorem lessThan_greaterThan_asymmetry_witness :
    greaterThan symX (Sym.var "y") = false :=
  lessThan_greaterThan_asymmetry.1 symX (Sym.var "y") (Or.inl (by decide))

/-! ## Theorems for C7 -/

/-- Expression.eq of the wrapper (unnamed wrapper file lines 234-244): the
kernel subtract runs inside a try/catch, modelled by an Except-valued
kernel; an error yields false, otherwise the difference is compared with
0. -/
def wrapperEq (sub : Sym → Sym → Except String Sym) (a v : Sym) : Bool :=
  match sub (cloneSym a) v with
  | .error _ => false
  | .ok d => symEquals d (Sym.num 0)

/-- Expression.lt of the wrapper (lines 246-256): evaluate(subtract(..))
inside a try/catch; an error yields false, otherwise
d.lessThan(0). -/
def wrapperLt (evalSub : Sym → Sym → Except String Sym) (a v : Sym) : Bool :=
  match evalSub (cloneSym a) v with
  | .error _ => false
  | .ok d => lessThan d 0

/-- Expression.gt of the wrapper (lines 258-268): evaluate(subtract(..))
inside a try/catch; an error yields false, otherwise
d.greaterThan(0). -/
def wrapperGt (evalSub : Sym → Sym → Except String Sym) (a v : Sym) : Bool :=
  match evalSub (cloneSym a) v with
  | .error _ => false
  | .ok d => greaterThan d (Sym.num 0)

/-- C7: whenever the kernel subtraction or evaluation invoked inside the
wrapper comparison raises, eq, lt and gt return false instead of
propagating the error. -/
theorem wrapper_eq_lt_gt_false_on_error
    (sub evalSub : Sym → Sym → Except String Sym) (a v : Sym) (e1 e2 : String)
    (h1 : sub (cloneSym a) v = .error e1)
    (h2 : evalSub (cloneSym a) v = .error e2) :
    wrapperEq sub a v = false ∧ wrapperLt evalSub a v = false ∧
      wrapperGt evalSub a v = false := by
  refine ⟨?_, ?_, ?_⟩
  all_goals simp [wrapperEq, wrapperLt, wrapperGt, h1, h2]

/-- Witness for C7 with kernels that always raise. -/
theorem wrapper_eq_lt_gt_false_on_error_witness :
    wrapperEq (fun _ _ => .error "e") symX symX = false ∧
      wrapperLt (fun _ _ => .error "e") symX symX = false ∧
      wrapperGt (fun _ _ => .error "e") symX symX = false :=
  wrapper_eq_lt_gt_false_on_error (fun _ _ => .error "e") (fun _ _ => .error "e")
    symX symX "e" "e" rfl rfl

/-! ## Symbol.variables (Symbol.js lines 1507-1551) -/

/-- Modelled from the spec: the JS isNaN test on a value string, which the
variable collector uses to exclude numeric literals.  A string consisting
of digits only (or the empty string, which JS coerces to 0) is numeric. -/
def jsIsNaN (s : String) : Bool := !(s.data.all Char.isDigit)

/-- The add method of the vars collector: push the value unless it is
already present or is a numeric string. -/
def varsAdd (c : List String) (v : String) : List String :=
  if v ∉ c ∧ jsIsNaN v = true then c ++ [v] else c

mutual
/-- The recursive collection pass of Symbol.variables, threading the
collector list c exactly as the source threads the vars object: an EX term
first walks its term power; CP and CB (also as previousGroup) walk all
children; an S term (also as previousGroup) contributes its value unless
it names e, pi or the imaginary unit; a PL term walks its first child
only; a leftover EX term would add its value only if numeric, which the
collector then filters out; an FN term walks its arguments unless the poly
flag is set.  The source sorts the collector in place at every return;
this model sorts once at the end, which yields the same list because the
membership filter of the add method does not depend on the order of c. -/
def varsCollect (poly : Bool) (t : Sym) (c : List String) : List String :=
  match t with
  | .mk core p syms args =>
    let c1 := if core.group == .EX then varsPow poly p c else c
    if core.group == .CP || core.group == .CB ||
        core.previousGroup == some .CP || core.previousGroup == some .CB then
      varsChildrenO poly syms c1
    else if core.group == .S || core.previousGroup == some .S then
      (if !(core.value == "e" || core.value == "pi" || core.value == IMAGINARY) then
        varsAdd c1 core.value
      else c1)
    else if core.group == .PL || core.previousGroup == some .PL then
      varsFirst poly syms c1
    else if core.group == .EX then
      varsPow poly p (if !(jsIsNaN core.value) then varsAdd c1 core.value else c1)
    else if core.group == .FN && !poly then varsArgs poly args c1
    else c1
termination_by 3 * Sym.mass t
decreasing_by
  all_goals (simp [Sym.mass, SPow.mass, childrenMassO, childrenMass, argsMass] <;> omega)

/-- Walk of the term power (the isSymbol(this.power) branches). -/
def varsPow (poly : Bool) (p : SPow) (c : List String) : List String :=
  match p with
  | .sym ps => varsCollect poly ps c
  | .frac _ => c
termination_by 3 * SPow.mass p + 2
decreasing_by
  all_goals (simp [SPow.mass] <;> omega)

/-- Walk of all children (the for-in over this.symbols; a missing map
iterates zero times, like a JS for-in over undefined). -/
def varsChildrenO (poly : Bool) (o : Option (List (String × Sym)))
    (c : List String) : List String :=
  match o with
  | some cl => varsChildren poly cl c
  | none => c
termination_by 3 * childrenMassO o + 2
decreasing_by
  all_goals (simp [childrenMassO] <;> omega)

/-- Walk of the first child only (the firstObject branch of the PL case). -/
def varsFirst (poly : Bool) (o : Option (List (String × Sym)))
    (c : List String) : List String :=
  match o with
  | some ((_, s0) :: _) => varsCollect poly s0 c
  | _ => c
termination_by 3 * childrenMassO o + 2
decreasing_by
  all_goals (simp [childrenMassO, childrenMass] <;> omega)

def varsChildren (poly : Bool) (l : List (String × Sym)) (c : List String) :
    List String :=
  match l with
  | [] => c
  | (_, s) :: r => varsChildren poly r (varsCollect poly s c)
termination_by 3 * childrenMass l + 1
decreasing_by
  all_goals (simp [childrenMass] <;> omega)

def varsArgs (poly : Bool) (l : List Sym) (c : List String) : List String :=
  match l with
  | [] => c
  | s :: r => varsArgs poly r (varsCollect poly s c)
termination_by 3 * argsMass l + 1
decreasing_by
  all_goals (simp [argsMass] <;> omega)
end

/-- Lexicographic order on strings by character codes, the order of the JS
default array sort used at the end of Symbol.variables. -/
def charListLe : List Char → List Char → Bool
  | [], _ => true
  | _ :: _, [] => false
  | a :: as, b :: bs =>
    if a.toNat < b.toNat then true
    else if b.toNat < a.toNat then false
    else charListLe as bs

def strLe (a b : String) : Prop := charListLe a.data b.data = true

instance : DecidableRel strLe := fun a b => by
  unfold strLe
  infer_instance

/-- Symbol.variables: collect, then sort alphabetically. -/
def variablesOf (t : Sym) : List String :=
  List.insertionSort strLe (varsCollect false t [])

mutual
/-- Claim-side definition: the names of the symbolic atoms occurring
anywhere in a term (value of every node of group S, or promoted from S,
through children, arguments and term powers). -/
def atomNames : Sym → List String
  | .mk core p syms args =>
    (if core.group == .S || core.previousGroup == some .S then [core.value] else [])
      ++ (match p with
          | .frac _ => []
          | .sym s => atomNames s)
      ++ (match syms with
          | none => []
          | some cl => childNames cl)
      ++ argNames args
termination_by t => Sym.mass t
decreasing_by
  all_goals (simp [Sym.mass, SPow.mass, childrenMassO, childrenMass, argsMass] <;> omega)

def childNames : List (String × Sym) → List String
  | [] => []
  | (_, s) :: r => atomNames s ++ childNames r
termination_by l => childrenMass l
decreasing_by
  all_goals (simp [childrenMass] <;> omega)

def argNames : List Sym → List String
  | [] => []
  | s :: r => atomNames s ++ argNames r
termination_by l => argsMass l
decreasing_by
  all_goals (simp [argsMass] <;> omega)
end

theorem charListLe_total : ∀ a b : List Char, charListLe a b = true ∨ charListLe b a = true
  | [], _ => Or.inl rfl
  | _ :: _, [] => Or.inr rfl
  | a :: as, b :: bs => by
    by_cases h1 : a.toNat < b.toNat
    · left
      simp [charListLe, h1]
    · by_cases h2 : b.toNat < a.toNat
      · right
        simp [charListLe, h1, h2]
      · rcases charListLe_total as bs with h | h
        · left
          simp [charListLe, h1, h2, h]
        · right
          simp [charListLe, h1, h2, h]

theorem charListLe_trans : ∀ a b c : List Char,
    charListLe a b = true → charListLe b c = true → charListLe a c = true
  | [], _, _ => by
    intro _ _
    rfl
  | _ :: _, [], _ => by
    intro h _
    exact absurd h (by simp [charListLe])
  | _ :: _, _ :: _, [] => by
    intro _ h
    exact absurd h (by simp [charListLe])
  | a :: as, b :: bs, c :: cs => by
    intro h1 h2
    simp only [charListLe] at h1 h2 ⊢
    by_cases hab : a.toNat < b.toNat
    · by_cases hbc : b.toNat < c.toNat
      · simp [show a.toNat < c.toNat by omega]
      · by_cases hcb : c.toNat < b.toNat
        · simp [hbc, hcb] at h2
        · simp [show a.toNat < c.toNat by omega]
    · by_cases hba : b.toNat < a.toNat
      · simp [hab, hba] at h1
      · by_cases hbc : b.toNat < c.toNat
        · simp [show a.toNat < c.toNat by omega]
        · by_cases hcb : c.toNat < b.toNat
          · simp [hbc, hcb] at h2
          · have hac : ¬(a.toNat < c.toNat) := by omega
            have hca : ¬(c.toNat < a.toNat) := by omega
            simp [hab, hba] at h1
            simp [hbc, hcb] at h2
            simp [hac, hca]
            exact charListLe_trans as bs cs h1 h2

instance : IsTotal String strLe :=
  ⟨fun a b => charListLe_total a.data b.data⟩

instance : IsTrans String strLe :=
  ⟨fun a b c => charListLe_trans a.data b.data c.data⟩

theorem mem_varsAdd (c : List String) (v w : String) (h : w ∈ varsAdd c v) :
    w ∈ c ∨ (w = v ∧ jsIsNaN v = true) := by
  unfold varsAdd at h
  by_cases hcond : v ∉ c ∧ jsIsNaN v = true
  · rw [if_pos hcond] at h
    rcases List.mem_append.1 h with h | h
    · exact Or.inl h
    · exact Or.inr ⟨List.mem_singleton.1 h, hcond.2⟩
  · rw [if_neg hcond] at h
    exact Or.inl h

theorem varsAdd_nodup (c : List String) (v : String) (h : c.Nodup) :
    (varsAdd c v).Nodup := by
  unfold varsAdd
  by_cases hcond : v ∉ c ∧ jsIsNaN v = true
  · rw [if_pos hcond]
    simp [List.nodup_append, h, hcond.1]
  · rw [if_neg hcond]
    exact h

theorem varsAdd_of_numeric (c : List String) (v : String)
    (h : jsIsNaN v = false) : varsAdd c v = c := by
  unfold varsAdd
  rw [if_neg]
  intro hcond
  rw [h] at hcond
  exact absurd hcond.2 (by simp)

/-- The names excluded by the collector guard: e, pi and the imaginary
unit. -/
def bannedName (v : String) : Prop := v = "e" ∨ v = "pi" ∨ v = IMAGINARY

theorem atomNames_mk (core : SymCore) (p : SPow)
    (syms : Option (List (String × Sym))) (args : List Sym) :
    atomNames (.mk core p syms args) =
      (if core.group == .S || core.previousGroup == some .S then [core.value] else [])
        ++ (match p with
            | .frac _ => []
            | .sym s => atomNames s)
        ++ (match syms with
            | none => []
            | some cl => childNames cl)
        ++ argNames args := by
  rw [atomNames.eq_def]

theorem pow_sub_atom (core : SymCore) (ps : Sym)
    (syms : Option (List (String × Sym))) (args : List Sym) (w : String)
    (h : w ∈ atomNames ps) : w ∈ atomNames (.mk core (.sym ps) syms args) := by
  rw [atomNames_mk]
  simp only [List.mem_append]
  tauto

theorem children_sub_atom (core : SymCore) (p : SPow)
    (cl : List (String × Sym)) (args : List Sym) (w : String)
    (h : w ∈ childNames cl) : w ∈ atomNames (.mk core p (some cl) args) := by
  rw [atomNames_mk]
  simp only [List.mem_append]
  tauto

theorem args_sub_atom (core : SymCore) (p : SPow)
    (syms : Option (List (String × Sym))) (args : List Sym) (w : String)
    (h : w ∈ argNames args) : w ∈ atomNames (.mk core p syms args) := by
  rw [atomNames_mk]
  simp only [List.mem_append]
  tauto

theorem value_atom (core : SymCore) (p : SPow)
    (syms : Option (List (String × Sym))) (args : List Sym)
    (hS : (core.group == SGroup.S || core.previousGroup == some SGroup.S) = true) :
    core.value ∈ atomNames (.mk core p syms args) := by
  rw [atomNames_mk]
  simp only [hS, if_true, List.mem_append]
  left
  left
  left
  exact List.mem_singleton_self _

theorem headchild_sub_atom (k : String) (s0 : Sym) (rest : List (String × Sym))
    (w : String) (h : w ∈ atomNames s0) : w ∈ childNames ((k, s0) :: rest) := by
  rw [childNames]
  exact List.mem_append.2 (Or.inl h)

theorem varsCollect_mk (poly : Bool) (core : SymCore) (p : SPow)
    (syms : Option (List (String × Sym))) (args : List Sym) (c : List String) :
    varsCollect poly (.mk core p syms args) c =
      (let c1 := if core.group == .EX then varsPow poly p c else c
       if core.group == .CP || core.group == .CB ||
           core.previousGroup == some .CP || core.previousGroup == some .CB then
         varsChildrenO poly syms c1
       else if core.group == .S || core.previousGroup == some .S then
         (if !(core.value == "e" || core.value == "pi" || core.value == IMAGINARY) then
           varsAdd c1 core.value
         else c1)
       else if core.group == .PL || core.previousGroup == some .PL then
         varsFirst poly syms c1
       else if core.group == .EX then
         varsPow poly p (if !(jsIsNaN core.value) then varsAdd c1 core.value else c1)
       else if core.group == .FN && !poly then varsArgs poly args c1
       else c1) := by
  rw [varsCollect.eq_def]

mutual
theorem varsCollect_mem : ∀ (poly : Bool) (t : Sym) (c : List String) (v : String),
    v ∈ varsCollect poly t c →
    v ∈ c ∨ (v ∈ atomNames t ∧ jsIsNaN v = true ∧ ¬ bannedName v)
  | poly, .mk core p syms args, c, v, h => by
    rw [varsCollect_mk] at h
    have hC1 : ∀ w, w ∈ (if core.group == SGroup.EX then varsPow poly p c else c) →
        w ∈ c ∨ (w ∈ atomNames (Sym.mk core p syms args) ∧
          jsIsNaN w = true ∧ ¬ bannedName w) := by
      intro w hw
      by_cases hEX : (core.group == SGroup.EX) = true
      · rw [if_pos hEX] at hw
        rcases varsPow_mem poly p c w hw with hh | ⟨ps, hps, hmem, hgood⟩
        · exact Or.inl hh
        · subst hps
          exact Or.inr ⟨pow_sub_atom core ps syms args w hmem, hgood⟩
      · rw [if_neg hEX] at hw
        exact Or.inl hw
    by_cases hcp : (core.group == SGroup.CP || core.group == SGroup.CB ||
        core.previousGroup == some SGroup.CP ||
        core.previousGroup == some SGroup.CB) = true
    · rw [if_pos hcp] at h
      rcases varsChildrenO_mem poly syms _ v h with hh | ⟨cl, hcl, hmem, hgood⟩
      · exact hC1 v hh
      · subst hcl
        exact Or.inr ⟨children_sub_atom core p cl args v hmem, hgood⟩
    · rw [if_neg hcp] at h
      by_cases hS : (core.group == SGroup.S || core.previousGroup == some SGroup.S) = true
      · rw [if_pos hS] at h
        by_cases hguard : (!(core.value == "e" || core.value == "pi"
            || core.value == IMAGINARY)) = true
        · rw [if_pos hguard] at h
          rcases mem_varsAdd _ core.value v h with hh | hh
          · exact hC1 v hh
          · obtain ⟨hv, hnan⟩ := hh
            subst hv
            refine Or.inr ⟨value_atom core p syms args hS, hnan, ?_⟩
            simp only [Bool.not_eq_true', Bool.or_eq_false_iff, beq_eq_false_iff_ne,
              ne_eq] at hguard
            intro hb
            rcases hb with hb | hb | hb
            · exact hguard.1.1 hb
            · exact hguard.1.2 hb
            · exact hguard.2 hb
        · rw [if_neg hguard] at h
          exact hC1 v h
      · rw [if_neg hS] at h
        by_cases hPL : (core.group == SGroup.PL
            || core.previousGroup == some SGroup.PL) = true
        · rw [if_pos hPL] at h
          rcases varsFirst_mem poly syms _ v h with hh | ⟨k, s0, rest, ho, hmem, hgood⟩
          · exact hC1 v hh
          · subst ho
            exact Or.inr ⟨children_sub_atom core p ((k, s0) :: rest) args v
              (headchild_sub_atom k s0 rest v hmem), hgood⟩
        · rw [if_neg hPL] at h
          by_cases hEX2 : (core.group == SGroup.EX) = true
          · rw [if_pos hEX2] at h
            have hc2 : (if !(jsIsNaN core.value) then
                varsAdd (if core.group == SGroup.EX then varsPow poly p c else c)
                  core.value
              else (if core.group == SGroup.EX then varsPow poly p c else c))
                = (if core.group == SGroup.EX then varsPow poly p c else c) := by
              by_cases hnv : (!(jsIsNaN core.value)) = true
              · rw [if_pos hnv]
                exact varsAdd_of_numeric _ _ (by simpa using hnv)
              · rw [if_neg hnv]
            rw [hc2] at h
            rcases varsPow_mem poly p _ v h with hh | ⟨ps, hps, hmem, hgood⟩
            · exact hC1 v hh
            · subst hps
              exact Or.inr ⟨pow_sub_atom core ps syms args v hmem, hgood⟩
          · rw [if_neg hEX2] at h
            by_cases hFN : (core.group == SGroup.FN && !poly) = true
            · rw [if_pos hFN] at h
              rcases varsArgs_mem poly args _ v h with hh | hh
              · exact hC1 v hh
              · exact Or.inr ⟨args_sub_atom core p syms args v hh.1, hh.2⟩
            · rw [if_neg hFN] at h
              exact hC1 v h
  termination_by poly t c v h => 3 * Sym.mass t
  decreasing_by
    all_goals (simp [Sym.mass, SPow.mass, childrenMassO, childrenMass, argsMass] <;> omega)

theorem varsPow_mem : ∀ (poly : Bool) (p : SPow) (c : List String) (v : String),
    v ∈ varsPow poly p c →
    v ∈ c ∨ (∃ ps, p = .sym ps ∧ v ∈ atomNames ps ∧ jsIsNaN v = true ∧ ¬ bannedName v)
  | poly, .frac q, c, v, h => by
    rw [varsPow] at h
    exact Or.inl h
  | poly, .sym ps, c, v, h => by
    rw [varsPow] at h
    rcases varsCollect_mem poly ps c v h with hh | hh
    · exact Or.inl hh
    · exact Or.inr ⟨ps, rfl, hh.1, hh.2⟩
  termination_by poly p c v h => 3 * SPow.mass p + 2
  decreasing_by
    all_goals (simp [SPow.mass] <;> omega)

theorem varsChildrenO_mem : ∀ (poly : Bool) (o : Option (List (String × Sym)))
    (c : List String) (v : String),
    v ∈ varsChildrenO poly o c →
    v ∈ c ∨ (∃ cl, o = some cl ∧ v ∈ childNames cl ∧ jsIsNaN v = true ∧ ¬ bannedName v)
  | poly, none, c, v, h => by
    rw [varsChildrenO] at h
    exact Or.inl h
  | poly, some cl, c, v, h => by
    rw [varsChildrenO] at h
    rcases varsChildren_mem poly cl c v h with hh | hh
    · exact Or.inl hh
    · exact Or.inr ⟨cl, rfl, hh.1, hh.2⟩
  termination_by poly o c v h => 3 * childrenMassO o + 2
  decreasing_by
    all_goals (simp [childrenMassO] <;> omega)

theorem varsFirst_mem : ∀ (poly : Bool) (o : Option (List (String × Sym)))
    (c : List String) (v : String),
    v ∈ varsFirst poly o c →
    v ∈ c ∨ (∃ k s0 rest, o = some ((k, s0) :: rest) ∧ v ∈ atomNames s0 ∧
      jsIsNaN v = true ∧ ¬ bannedName v)
  | poly, none, c, v, h => by
    simp only [varsFirst.eq_def] at h
    exact Or.inl h
  | poly, some [], c, v, h => by
    simp only [varsFirst.eq_def] at h
    exact Or.inl h
  | poly, some ((k, s0) :: rest), c, v, h => by
    rw [varsFirst] at h
    rcases varsCollect_mem poly s0 c v h with hh | hh
    · exact Or.inl hh
    · exact Or.inr ⟨k, s0, rest, rfl, hh.1, hh.2⟩
  termination_by poly o c v h => 3 * childrenMassO o + 2
  decreasing_by
    all_goals (simp [childrenMassO, childrenMass] <;> omega)

theorem varsChildren_mem : ∀ (poly : Bool) (l : List (String × Sym))
    (c : List String) (v : String),
    v ∈ varsChildren poly l c →
    v ∈ c ∨ (v ∈ childNames l ∧ jsIsNaN v = true ∧ ¬ bannedName v)
  | poly, [], c, v, h => by
    rw [varsChildren] at h
    exact Or.inl h
  | poly, (k, s) :: r, c, v, h => by
    rw [varsChildren] at h
    rcases varsChildren_mem poly r _ v h with hh | hh
    · rcases varsCollect_mem poly s c v hh with hh2 | hh2
      · exact Or.inl hh2
      · refine Or.inr ⟨?_, hh2.2⟩
        rw [childNames]
        exact List.mem_append.2 (Or.inl hh2.1)
    · refine Or.inr ⟨?_, hh.2⟩
      rw [childNames]
      exact List.mem_append.2 (Or.inr hh.1)
  termination_by poly l c v h => 3 * childrenMass l + 1
  decreasing_by
    all_goals (simp [childrenMass] <;> omega)

theorem varsArgs_mem : ∀ (poly : Bool) (l : List Sym) (c : List String) (v : String),
    v ∈ varsArgs poly l c →
    v ∈ c ∨ (v ∈ argNames l ∧ jsIsNaN v = true ∧ ¬ bannedName v)
  | poly, [], c, v, h => by
    rw [varsArgs] at h
    exact Or.inl h
  | poly, s :: r, c, v, h => by
    rw [varsArgs] at h
    rcases varsArgs_mem poly r _ v h with hh | hh
    · rcases varsCollect_mem poly s c v hh with hh2 | hh2
      · exact Or.inl hh2
      · refine Or.inr ⟨?_, hh2.2⟩
        rw [argNames]
        exact List.mem_append.2 (Or.inl hh2.1)
    · refine Or.inr ⟨?_, hh.2⟩
      rw [argNames]
      exact List.mem_append.2 (Or.inr hh.1)
  termination_by poly l c v h => 3 * argsMass l + 1
  decreasing_by
    all_goals (simp [argsMass] <;> omega)
end

mutual
theorem varsCollect_nodup : ∀ (poly : Bool) (t : Sym) (c : List String),
    c.Nodup → (varsCollect poly t c).Nodup
  | poly, .mk core p syms args, c, hc => by
    rw [varsCollect_mk]
    have hC1 : (if core.group == SGroup.EX then varsPow poly p c else c).Nodup := by
      by_cases hEX : (core.group == SGroup.EX) = true
      · rw [if_pos hEX]
        exact varsPow_nodup poly p c hc
      · rw [if_neg hEX]
        exact hc
    by_cases hcp : (core.group == SGroup.CP || core.group == SGroup.CB ||
        core.previousGroup == some SGroup.CP ||
        core.previousGroup == some SGroup.CB) = true
    · rw [if_pos hcp]
      exact varsChildrenO_nodup poly syms _ hC1
    · rw [if_neg hcp]
      by_cases hS : (core.group == SGroup.S || core.previousGroup == some SGroup.S) = true
      · rw [if_pos hS]
        by_cases hguard : (!(core.value == "e" || core.value == "pi"
            || core.value == IMAGINARY)) = true
        · rw [if_pos hguard]
          exact varsAdd_nodup _ _ hC1
        · rw [if_neg hguard]
          exact hC1
      · rw [if_neg hS]
        by_cases hPL : (core.group == SGroup.PL
            || core.previousGroup == some SGroup.PL) = true
        · rw [if_pos hPL]
          exact varsFirst_nodup poly syms _ hC1
        · rw [if_neg hPL]
          by_cases hEX2 : (core.group == SGroup.EX) = true
          · rw [if_pos hEX2]
            refine varsPow_nodup poly p _ ?_
            by_cases hnv : (!(jsIsNaN core.value)) = true
            · rw [if_pos hnv]
              exact varsAdd_nodup _ _ hC1
            · rw [if_neg hnv]
              exact hC1
          · rw [if_neg hEX2]
            by_cases hFN : (core.group == SGroup.FN && !poly) = true
            · rw [if_pos hFN]
              exact varsArgs_nodup poly args _ hC1
            · rw [if_neg hFN]
              exact hC1
  termination_by poly t c hc => 3 * Sym.mass t
  decreasing_by
    all_goals (simp [Sym.mass, SPow.mass, childrenMassO, childrenMass, argsMass] <;> omega)

theorem varsPow_nodup : ∀ (poly : Bool) (p : SPow) (c : List String),
    c.Nodup → (varsPow poly p c).Nodup
  | poly, .frac q, c, hc => by
    rw [varsPow]
    exact hc
  | poly, .sym ps, c, hc => by
    rw [varsPow]
    exact varsCollect_nodup poly ps c hc
  termination_by poly p c hc => 3 * SPow.mass p + 2
  decreasing_by
    all_goals (simp [SPow.mass] <;> omega)

theorem varsChildrenO_nodup : ∀ (poly : Bool) (o : Option (List (String × Sym)))
    (c : List String), c.Nodup → (varsChildrenO poly o c).Nodup
  | poly, none, c, hc => by
    rw [varsChildrenO]
    exact hc
  | poly, some cl, c, hc => by
    rw [varsChildrenO]
    exact varsChildren_nodup poly cl c hc
  termination_by poly o c hc => 3 * childrenMassO o + 2
  decreasing_by
    all_goals (simp [childrenMassO] <;> omega)

theorem varsFirst_nodup : ∀ (poly : Bool) (o : Option (List (String × Sym)))
    (c : List String), c.Nodup → (varsFirst poly o c).Nodup
  | poly, none, c, hc => by
    simp only [varsFirst.eq_def]
    exact hc
  | poly, some [], c, hc => by
    simp only [varsFirst.eq_def]
    exact hc
  | poly, some ((k, s0) :: rest), c, hc => by
    rw [varsFirst]
    exact varsCollect_nodup poly s0 c hc
  termination_by poly o c hc => 3 * childrenMassO o + 2
  decreasing_by
    all_goals (simp [childrenMassO, childrenMass] <;> omega)

theorem varsChildren_nodup : ∀ (poly : Bool) (l : List (String × Sym))
    (c : List String), c.Nodup → (varsChildren poly l c).Nodup
  | poly, [], c, hc => by
    rw [varsChildren]
    exact hc
  | poly, (k, s) :: r, c, hc => by
    rw [varsChildren]
    exact varsChildren_nodup poly r _ (varsCollect_nodup poly s c hc)
  termination_by poly l c hc => 3 * childrenMass l + 1
  decreasing_by
    all_goals (simp [childrenMass] <;> omega)

theorem varsArgs_nodup : ∀ (poly : Bool) (l : List Sym) (c : List String),
    c.Nodup → (varsArgs poly l c).Nodup
  | poly, [], c, hc => by
    rw [varsArgs]
    exact hc
  | poly, s :: r, c, hc => by
    rw [varsArgs]
    exact varsArgs_nodup poly r _ (varsCollect_nodup poly s c hc)
  termination_by poly l c hc => 3 * argsMass l + 1
  decreasing_by
    all_goals (simp [argsMass] <;> omega)
end

/-- C8 amended: variables() returns an alphabetically sorted, duplicate-free
list of (non-numeric) variable names drawn from the symbolic atoms of the
term and never containing e, pi or the imaginary unit; it is however not
complete: an EX term promoted from FN does not traverse its function
arguments, so their variables are missing (see the counterexample). -/
theorem variables_sorted_nodup_sound (t : Sym) :
    List.Sorted strLe (variablesOf t) ∧ (variablesOf t).Nodup ∧
      ∀ v ∈ variablesOf t, v ∈ atomNames t ∧ jsIsNaN v = true ∧ ¬ bannedName v := by
  refine ⟨List.sorted_insertionSort strLe _, ?_, ?_⟩
  · exact ((List.perm_insertionSort strLe _).nodup_iff).2
      (varsCollect_nodup false t [] List.nodup_nil)
  · intro v hv
    have hv2 : v ∈ varsCollect false t [] :=
      ((List.perm_insertionSort strLe _).mem_iff).1 hv
    rcases varsCollect_mem false t [] v hv2 with h | h
    · exact absurd h (List.not_mem_nil v)
    · exact h

/-- The term sin(x)^y as the kernel pow builds it: an FN term promoted to
EX (convert to EX keeps fname and args, sets previousGroup to FN, stores
the hash as value and the exponent term as power). -/
def exFN : Sym :=
  .mk { group := .EX, value := "sin(x)", multiplier := 1, length := 0,
        previousGroup := some .FN, fname := some "sin", imaginary := false,
        isInfinity := false, isUnit := false, isConversion := false,
        scientific := false, parens := false }
      (.sym (Sym.var "y")) none [Sym.var "x"]

theorem variablesOf_exFN : variablesOf exFN = ["y"] := by
  have h2 : varsCollect false (Sym.var "y") [] = ["y"] := by
    unfold Sym.var
    rw [varsCollect_mk]
    simp [varsAdd, jsIsNaN, IMAGINARY]
  have h3 : varsCollect false (Sym.var "y") ["y"] = ["y"] := by
    unfold Sym.var
    rw [varsCollect_mk]
    simp [varsAdd, jsIsNaN, IMAGINARY]
  have h1 : varsCollect false exFN [] = ["y"] := by
    unfold exFN
    rw [varsCollect_mk]
    simp [h2, h3, varsPow, jsIsNaN, IMAGINARY]
  unfold variablesOf
  rw [h1]
  rfl

/-- C8 counterexample: the variables of sin(x)^y are reported as just
["y"]: the chain of group tests never reaches the FN-argument walk for an
EX term promoted from FN, so the occurring variable x (a symbolic atom of
the term, not a constant and not numeric) is missing from the result. -/
theorem variables_misses_ex_fn_args_cx :
    variablesOf exFN = ["y"] ∧ "x" ∈ atomNames exFN ∧ "x" ∉ variablesOf exFN ∧
      jsIsNaN "x" = true ∧ ¬ bannedName "x" := by
  refine ⟨variablesOf_exFN, ?_, ?_, by decide, ?_⟩
  · unfold exFN
    rw [atomNames_mk]
    simp [argNames, atomNames_mk, Sym.var]
  · rw [variablesOf_exFN]
    decide
  · intro hb
    rcases hb with hb | hb | hb
    all_goals simp [IMAGINARY] at hb

/-- Witness for the amended C8 statement at the concrete term sin(x)^y and
the returned name y. -/
theorem variables_sorted_nodup_sound_witness :
    "y" ∈ atomNames exFN ∧ jsIsNaN "y" = true ∧ ¬ bannedName "y" :=
  (variables_sorted_nodup_sound exFN).2.2 "y" (by
    have h2 : varsCollect false (Sym.var "y") [] = ["y"] := by
      unfold Sym.var
      rw [varsCollect_mk]
      simp [varsAdd, jsIsNaN, IMAGINARY]
    have h3 : varsCollect false (Sym.var "y") ["y"] = ["y"] := by
      unfold Sym.var
      rw [varsCollect_mk]
      simp [varsAdd, jsIsNaN, IMAGINARY]
    have h1 : varsCollect false exFN [] = ["y"] := by
      unfold exFN
      rw [varsCollect_mk]
      simp [h2, h3, varsPow, jsIsNaN, IMAGINARY]
    unfold variablesOf
    rw [h1]
    decide)

/-! ## Tokenizer parity (src/src/Parser/Tokenizer.ts, InnerTokenizer.tokenize)

The scan loop of InnerTokenizer.tokenize is embedded with the state that
feeds its three ParityError throw sites: the column cursor col, the
last-token marker lpos and the open-bracket stack (pairs of bracket and
the lpos recorded at push time).  Token and scope construction are
dropped: the target pushes, the scope stack and the has_space flag never
feed back into the bracket stack, the cursor arithmetic or the throws, so
the projection preserves the error behaviour exactly.  The constructor
normalisation (trim, whitespace collapse, removal of spaces adjacent to
brackets) runs before this loop; the theorems quantify over the prepared
string. -/

/-- A bracket descriptor of the injected Brackets map. -/
structure Bracket where
  id : Nat
  isOpen : Bool
  isClose : Bool
deriving DecidableEq, Repr

/-- The injected tokenizer environment: the single-character operator test
of the OperatorDictionary and the Brackets map. -/
structure TokEnv where
  isOpChar : Char → Bool
  brk : Char → Option Bracket

/-- Message of the missing-open-bracket throw (Tokenizer.ts line 478). -/
def msgMissingOpen (col : Nat) : String :=
  "Missing open bracket for bracket at: " ++ toString col

/-- Message of the mismatched-pair throw (Tokenizer.ts line 481). -/
def msgParity : String := "Parity error"

/-- Message of the unclosed-bracket throw (Tokenizer.ts line 555). -/
def msgMissingClose (col : Nat) : String :=
  "Missing closed bracket for bracket at " ++ toString col

/-- The scan loop.  An operator character consumes its whole maximal run
(get_operator_str walks it and adjust_column_position moves col and lpos
to its end); an open bracket pushes itself with the current lpos and sets
lpos past the bracket; a close bracket pops and validates the pair,
throwing the two ParityErrors of lines 478 and 481; a space only moves
lpos; any other character only moves col.  At the end of the string a
nonempty stack raises the ParityError of line 555 citing the recorded
lpos of the topmost open bracket plus one. -/
def scanAux (env : TokEnv) : List Char → Nat → Nat → List (Bracket × Nat) →
    Except String Unit
  | [], _, _, stack =>
    match stack with
    | [] => .ok ()
    | b :: _ => .error (msgMissingClose (b.2 + 1))
  | ch :: rest, col, lpos, stack =>
    if env.isOpChar ch then
      let n := (rest.takeWhile env.isOpChar).length
      scanAux env (rest.drop n) (col + n + 1) (col + n + 1) stack
    else
      match env.brk ch with
      | some b =>
        if b.isOpen then
          scanAux env rest (col + 1) (col + 1) ((b, lpos) :: stack)
        else if b.isClose then
          match stack with
          | [] => .error (msgMissingOpen (col + 1))
          | (p, _) :: stack2 =>
            if p.id ≠ b.id - 1 then .error msgParity
            else scanAux env rest (col + 1) (col + 1) stack2
        else scanAux env rest (col + 1) (col + 1) stack
      | none =>
        if ch = ' ' then scanAux env rest (col + 1) (col + 1) stack
        else scanAux env rest (col + 1) lpos stack
termination_by rest => rest.length
decreasing_by
  all_goals simp [List.length_drop]
  all_goals omega

/-- Entry point: tokenize the prepared expression from column 0. -/
def tokenizeParity (env : TokEnv) (e : List Char) : Except String Unit :=
  scanAux env e 0 0 []

/-- Claim-side definition, following the words of the spec: walk the
string, ignore everything but brackets, push openers, pop and pair-check
closers with the (opener.id = closer.id - 1) convention, and demand an
empty stack at the end. -/
def specWalk (env : TokEnv) : List Char → List Bracket → Bool
  | [], stack => stack.isEmpty
  | ch :: rest, stack =>
    match env.brk ch with
    | some b =>
      if b.isOpen then specWalk env rest (b :: stack)
      else if b.isClose then
        (match stack with
         | [] => false
         | p :: stack2 => if p.id ≠ b.id - 1 then false else specWalk env rest stack2)
      else specWalk env rest stack
    | none => specWalk env rest stack

theorem specWalk_skip (env : TokEnv) :
    ∀ (l : List Char) (rest : List Char) (stack : List Bracket),
    (∀ c ∈ l, env.brk c = none) →
    specWalk env (l ++ rest) stack = specWalk env rest stack := by
  intro l
  induction l with
  | nil =>
    intro rest stack h
    rfl
  | cons c l2 ih =>
    intro rest stack h
    rw [List.cons_append, specWalk]
    rw [h c (List.mem_cons_self c l2)]
    exact ih rest stack (fun d hd => h d (List.mem_cons_of_mem c hd))

theorem drop_takeWhile_len (p : Char → Bool) :
    ∀ l : List Char, l.drop ((l.takeWhile p).length) = l.dropWhile p := by
  intro l
  induction l with
  | nil => rfl
  | cons c l2 ih =>
    by_cases hc : p c = true
    · simp [List.takeWhile_cons, List.dropWhile_cons, hc, ih]
    · simp only [Bool.not_eq_true] at hc
      simp [List.takeWhile_cons, List.dropWhile_cons, hc]

theorem scanAux_op (env : TokEnv) (ch : Char) (rest : List Char) (col lpos : Nat)
    (stack : List (Bracket × Nat)) (hop : env.isOpChar ch = true) :
    scanAux env (ch :: rest) col lpos stack
      = scanAux env (rest.dropWhile env.isOpChar)
          (col + (rest.takeWhile env.isOpChar).length + 1)
          (col + (rest.takeWhile env.isOpChar).length + 1) stack := by
  rw [scanAux.eq_def]
  simp [hop, drop_takeWhile_len]

theorem scanAux_open (env : TokEnv) (ch : Char) (rest : List Char) (col lpos : Nat)
    (stack : List (Bracket × Nat)) (b : Bracket) (hop : env.isOpChar ch = false)
    (hbrk : env.brk ch = some b) (ho : b.isOpen = true) :
    scanAux env (ch :: rest) col lpos stack
      = scanAux env rest (col + 1) (col + 1) ((b, lpos) :: stack) := by
  rw [scanAux.eq_def]
  simp [hop, hbrk, ho]

theorem scanAux_close_nil (env : TokEnv) (ch : Char) (rest : List Char) (col lpos : Nat)
    (b : Bracket) (hop : env.isOpChar ch = false) (hbrk : env.brk ch = some b)
    (ho : b.isOpen = false) (hc : b.isClose = true) :
    scanAux env (ch :: rest) col lpos [] = .error (msgMissingOpen (col + 1)) := by
  rw [scanAux.eq_def]
  simp [hop, hbrk, ho, hc]

theorem scanAux_close_bad (env : TokEnv) (ch : Char) (rest : List Char) (col lpos : Nat)
    (b p : Bracket) (x : Nat) (stack2 : List (Bracket × Nat))
    (hop : env.isOpChar ch = false) (hbrk : env.brk ch = some b)
    (ho : b.isOpen = false) (hc : b.isClose = true) (hmm : p.id ≠ b.id - 1) :
    scanAux env (ch :: rest) col lpos ((p, x) :: stack2) = .error msgParity := by
  rw [scanAux.eq_def]
  simp [hop, hbrk, ho, hc, hmm]

theorem scanAux_close_ok (env : TokEnv) (ch : Char) (rest : List Char) (col lpos : Nat)
    (b p : Bracket) (x : Nat) (stack2 : List (Bracket × Nat))
    (hop : env.isOpChar ch = false) (hbrk : env.brk ch = some b)
    (ho : b.isOpen = false) (hc : b.isClose = true) (hmm : p.id = b.id - 1) :
    scanAux env (ch :: rest) col lpos ((p, x) :: stack2)
      = scanAux env rest (col + 1) (col + 1) stack2 := by
  rw [scanAux.eq_def]
  simp [hop, hbrk, ho, hc, hmm]

theorem scanAux_nobrk (env : TokEnv) (ch : Char) (rest : List Char) (col lpos : Nat)
    (stack : List (Bracket × Nat)) (b : Bracket) (hop : env.isOpChar ch = false)
    (hbrk : env.brk ch = some b) (ho : b.isOpen = false) (hc : b.isClose = false) :
    scanAux env (ch :: rest) col lpos stack
      = scanAux env rest (col + 1) (col + 1) stack := by
  rw [scanAux.eq_def]
  simp [hop, hbrk, ho, hc]

theorem scanAux_space (env : TokEnv) (ch : Char) (rest : List Char) (col lpos : Nat)
    (stack : List (Bracket × Nat)) (hop : env.isOpChar ch = false)
    (hbrk : env.brk ch = none) (hsp : ch = ' ') :
    scanAux env (ch :: rest) col lpos stack
      = scanAux env rest (col + 1) (col + 1) stack := by
  subst hsp
  rw [scanAux.eq_def]
  simp [hop, hbrk]

theorem scanAux_plain (env : TokEnv) (ch : Char) (rest : List Char) (col lpos : Nat)
    (stack : List (Bracket × Nat)) (hop : env.isOpChar ch = false)
    (hbrk : env.brk ch = none) (hsp : ¬ch = ' ') :
    scanAux env (ch :: rest) col lpos stack
      = scanAux env rest (col + 1) lpos stack := by
  rw [scanAux.eq_def]
  simp [hop, hbrk, hsp]

theorem scanAux_spec (env : TokEnv)
    (hdisj : ∀ c, env.isOpChar c = true → env.brk c = none) :
    ∀ (rest : List Char) (col lpos : Nat) (stack : List (Bracket × Nat)),
    (scanAux env rest col lpos stack = .ok () ↔
      specWalk env rest (stack.map Prod.fst) = true)
    ∧ (∀ m, scanAux env rest col lpos stack = .error m →
        (∃ cc, m = msgMissingOpen (cc + 1)) ∨ m = msgParity ∨
          ∃ pp, m = msgMissingClose (pp + 1))
  | [], col, lpos, stack => by
    rw [scanAux.eq_def]
    cases stack with
    | nil =>
      constructor
      · simp [specWalk]
      · intro m hm
        simp at hm
    | cons b stack2 =>
      constructor
      · constructor
        · intro hcon
          simp at hcon
        · intro hcon
          simp [specWalk] at hcon
      · intro m hm
        refine Or.inr (Or.inr ⟨b.2, ?_⟩)
        simpa using hm.symm
  | ch :: rest, col, lpos, stack => by
    by_cases hop : env.isOpChar ch = true
    · have hbrk : env.brk ch = none := hdisj ch hop
      have h1 : specWalk env (ch :: rest) (stack.map Prod.fst)
          = specWalk env rest (stack.map Prod.fst) := by
        simp [specWalk, hbrk]
      have hspec : specWalk env (ch :: rest) (stack.map Prod.fst)
          = specWalk env (rest.dropWhile env.isOpChar) (stack.map Prod.fst) := by
        rw [h1]
        conv =>
          lhs
          rw [show rest = rest.takeWhile env.isOpChar ++ rest.dropWhile env.isOpChar from
            (List.takeWhile_append_dropWhile env.isOpChar rest).symm]
        exact specWalk_skip env _ _ _
          (fun c hc => hdisj c (List.mem_takeWhile_imp hc))
      rw [scanAux_op env ch rest col lpos stack hop, hspec]
      exact scanAux_spec env hdisj (rest.dropWhile env.isOpChar) _ _ stack
    · have hop2 : env.isOpChar ch = false := by
        simpa using hop
      rcases hbrk : env.brk ch with _ | b
      · have hspec : specWalk env (ch :: rest) (stack.map Prod.fst)
            = specWalk env rest (stack.map Prod.fst) := by
          simp [specWalk, hbrk]
        by_cases hsp : ch = ' '
        · rw [scanAux_space env ch rest col lpos stack hop2 hbrk hsp, hspec]
          exact scanAux_spec env hdisj rest _ _ stack
        · rw [scanAux_plain env ch rest col lpos stack hop2 hbrk hsp, hspec]
          exact scanAux_spec env hdisj rest _ _ stack
      · by_cases ho : b.isOpen = true
        · have hspec : specWalk env (ch :: rest) (stack.map Prod.fst)
              = specWalk env rest (((b, lpos) :: stack).map Prod.fst) := by
            simp [specWalk, hbrk, ho]
          rw [scanAux_open env ch rest col lpos stack b hop2 hbrk ho, hspec]
          exact scanAux_spec env hdisj rest _ _ ((b, lpos) :: stack)
        · have ho2 : b.isOpen = false := by
            simpa using ho
          by_cases hc : b.isClose = true
          · match stack with
            | [] =>
              rw [scanAux_close_nil env ch rest col lpos b hop2 hbrk ho2 hc]
              constructor
              · constructor
                · intro hcon
                  simp at hcon
                · intro hcon
                  simp [specWalk, hbrk, ho2, hc] at hcon
              · intro m hm
                refine Or.inl ⟨col, ?_⟩
                simpa using hm.symm
            | (p, x) :: stack2 =>
              by_cases hmm : p.id ≠ b.id - 1
              · rw [scanAux_close_bad env ch rest col lpos b p x stack2 hop2 hbrk ho2 hc hmm]
                constructor
                · constructor
                  · intro hcon
                    simp at hcon
                  · intro hcon
                    simp [specWalk, hbrk, ho2, hc, hmm] at hcon
                · intro m hm
                  refine Or.inr (Or.inl ?_)
                  simpa using hm.symm
              · have hmm2 : p.id = b.id - 1 := not_not.mp hmm
                have hspec : specWalk env (ch :: rest) (((p, x) :: stack2).map Prod.fst)
                    = specWalk env rest (stack2.map Prod.fst) := by
                  simp [specWalk, hbrk, ho2, hc, hmm2]
                rw [scanAux_close_ok env ch rest col lpos b p x stack2 hop2 hbrk ho2 hc hmm2,
                  hspec]
                exact scanAux_spec env hdisj rest _ _ stack2
          · have hc2 : b.isClose = false := by
              simpa using hc
            have hspec : specWalk env (ch :: rest) (stack.map Prod.fst)
                = specWalk env rest (stack.map Prod.fst) := by
              simp [specWalk, hbrk, ho2, hc2]
            rw [scanAux_nobrk env ch rest col lpos stack b hop2 hbrk ho2 hc2, hspec]
            exact scanAux_spec env hdisj rest _ _ stack
  termination_by rest col lpos stack => rest.length
  decreasing_by
    all_goals simp only [List.length_cons]
    all_goals
      (try (have h : (rest.dropWhile env.isOpChar).length ≤ rest.length :=
        (List.dropWhile_sublist env.isOpChar).length_le))
    all_goals omega

/-- A concrete injected environment: the default operator glyphs as
single-character operator test, and a Brackets map with the round and
square bracket families under the (opener.id = closer.id - 1) pairing
convention of the spec. -/
def envStd : TokEnv where
  isOpChar := fun c =>
    c = '+' || c = '-' || c = '*' || c = '/' || c = '^' || c = '!' || c = ','
  brk := fun c =>
    if c = '(' then some ⟨1, true, false⟩
    else if c = ')' then some ⟨2, false, true⟩
    else if c = '[' then some ⟨3, true, false⟩
    else if c = ']' then some ⟨4, false, true⟩
    else none

theorem envStd_disj : ∀ c, envStd.isOpChar c = true → envStd.brk c = none := by
  intro c hc
  simp [envStd] at hc
  rcases hc with (((((h | h) | h) | h) | h) | h) | h <;> subst h <;> rfl

/-- C6 counterexample: a mismatched bracket pair raises the ParityError of
line 481 whose message is exactly the string Parity error, containing no
digit at all and hence citing no source column, while the missing-open and
missing-close ParityErrors of the neighbouring throws do cite a 1-based
column. -/
theorem parity_error_without_column_cx :
    tokenizeParity envStd "(x]".data = Except.error msgParity
    ∧ msgParity = "Parity error"
    ∧ msgParity.data.all (fun c => !c.isDigit) = true
    ∧ tokenizeParity envStd ")x".data = Except.error (msgMissingOpen 1)
    ∧ tokenizeParity envStd "(x".data = Except.error (msgMissingClose 1) := by
  refine ⟨?_, rfl, by decide, ?_, ?_⟩
  · show scanAux envStd ['(', 'x', ']'] 0 0 [] = Except.error msgParity
    rw [scanAux_open envStd '(' ['x', ']'] 0 0 [] ⟨1, true, false⟩ rfl rfl rfl]
    show scanAux envStd ['x', ']'] 1 1 [(⟨1, true, false⟩, 0)] = Except.error msgParity
    rw [scanAux_plain envStd 'x' [']'] 1 1 [(⟨1, true, false⟩, 0)] rfl rfl (by decide)]
    show scanAux envStd [']'] 2 1 [(⟨1, true, false⟩, 0)] = Except.error msgParity
    rw [scanAux_close_bad envStd ']' [] 2 1 ⟨4, false, true⟩ ⟨1, true, false⟩ 0 []
      rfl rfl rfl rfl (by decide)]
  · show scanAux envStd [')', 'x'] 0 0 [] = Except.error (msgMissingOpen 1)
    rw [scanAux_close_nil envStd ')' ['x'] 0 0 ⟨2, false, true⟩ rfl rfl rfl rfl]
  · show scanAux envStd ['(', 'x'] 0 0 [] = Except.error (msgMissingClose 1)
    rw [scanAux_open envStd '(' ['x'] 0 0 [] ⟨1, true, false⟩ rfl rfl rfl]
    show scanAux envStd ['x'] 1 1 [(⟨1, true, false⟩, 0)] = Except.error (msgMissingClose 1)
    rw [scanAux_plain envStd 'x' [] 1 1 [(⟨1, true, false⟩, 0)] rfl rfl (by decide)]
    show scanAux envStd [] 2 1 [(⟨1, true, false⟩, 0)] = Except.error (msgMissingClose 1)
    rw [scanAux.eq_def]

/-- C6: over any injected environment whose operator characters are not
bracket characters, the bracket-parity scan of InnerTokenizer.tokenize
accepts exactly the strings whose bracket sequence is balanced under the
(opener.id = closer.id - 1) pairing, and every rejection is one of the
three ParityError messages: the missing-open and missing-close messages
cite a 1-based column, the mismatched-pair message is the bare string
Parity error without a column. -/
theorem tokenize_parity_errors (env : TokEnv)
    (hdisj : ∀ c, env.isOpChar c = true → env.brk c = none) (e : List Char) :
    (tokenizeParity env e = .ok () ↔ specWalk env e [] = true)
    ∧ (∀ m, tokenizeParity env e = .error m →
        (∃ cc, m = msgMissingOpen (cc + 1)) ∨ m = msgParity ∨
          ∃ pp, m = msgMissingClose (pp + 1)) := by
  have h := scanAux_spec env hdisj e 0 0 []
  simpa [tokenizeParity] using h

theorem tokenize_parity_errors_witness :
    (∀ c, envStd.isOpChar c = true → envStd.brk c = none)
    ∧ ((tokenizeParity envStd "(x]".data = .ok ()
          ↔ specWalk envStd "(x]".data [] = true)
        ∧ (∀ m, tokenizeParity envStd "(x]".data = .error m →
            (∃ cc, m = msgMissingOpen (cc + 1)) ∨ m = msgParity ∨
              ∃ pp, m = msgMissingClose (pp + 1))) :=
  ⟨envStd_disj, tokenize_parity_errors envStd envStd_disj "(x]".data⟩

/- prepareExpression (Tokenizer.ts lines 101-168).  The driver, the
whitespace collapse, the scientific-literal regex, the implied
multiplication callback, the close-open bracket rewrite with its empty
string fallback, the single-character split callback and the fixpoint
loop with its regex are all in the source.  Settings and Math2 are
outside src/: the implied-multiplication regex shape, the decimal
expansion and the numeric-string test are modelled from the spec and
marked as such; the function table and the multicharacter-variable
setting are parameters.  The scanners walk the string with an explicit
fuel that starts at the string length; every step consumes at least one
character, so the fuel never runs out on the initial call and only
bounds the recursion. -/

/-- The character class of the loop regex groups a and d: [a-z0-9_]
case-insensitive. -/
def isWordC (c : Char) : Bool := c.isAlphanum || c = '_'

/-- The character class of the loop regex group d after a close bracket:
[a-z0-9] case-insensitive, without the underscore. -/
def isWord2C (c : Char) : Bool := c.isAlphanum

/-- The operator characters of the implied-multiplication callback
guard: plus, minus, slash, star. -/
def isOpCh (c : Char) : Bool := c = '+' || c = '-' || c = '/' || c = '*'

/-- Whether a list starts with a character satisfying q. -/
def headIs (q : Char → Bool) : List Char → Bool
  | [] => false
  | d :: _ => q d

/-- The whitespace collapse: each maximal whitespace run becomes one
space (the replace of line 113). -/
def collapseWs : List Char → List Char
  | [] => []
  | [c] => if c.isWhitespace then [' '] else [c]
  | c :: d :: r =>
    if c.isWhitespace && d.isWhitespace then collapseWs (d :: r)
    else (if c.isWhitespace then ' ' else c) :: collapseWs (d :: r)

/-- One parsed scientific literal of the regex at line 120: minus run,
integer digits, dot run, fraction digits, the e character, optional plus,
optional minus, exponent digits. -/
structure SciLit where
  neg : List Char
  d1 : List Char
  dots : List Char
  d2 : List Char
  ech : Char
  plus : List Char
  minus : List Char
  d3 : List Char

/-- Attempt the scientific-literal regex at the head of the string;
greedy runs are faithful because backtracking a shorter run never
satisfies the next mandatory character class. -/
def sciTry (s : List Char) : Option (SciLit × List Char) :=
  let neg := s.takeWhile (fun c => c = '-')
  let s1 := s.dropWhile (fun c => c = '-')
  let d1 := s1.takeWhile Char.isDigit
  if d1.isEmpty then none else
  let s2 := s1.dropWhile Char.isDigit
  let dots := s2.takeWhile (fun c => c = '.')
  let s3 := s2.dropWhile (fun c => c = '.')
  let d2 := s3.takeWhile Char.isDigit
  let s4 := s3.dropWhile Char.isDigit
  match s4 with
  | [] => none
  | e :: s5 =>
    if e = 'e' || e = 'E' then
      let ps := match s5 with
        | '+' :: t => (['+'], t)
        | _ => (([] : List Char), s5)
      let ms := match ps.2 with
        | '-' :: t => (['-'], t)
        | _ => (([] : List Char), ps.2)
      let d3 := ms.2.takeWhile Char.isDigit
      if d3.isEmpty then none
      else some (⟨neg, d1, dots, d2, e, ps.1, ms.1, d3⟩, ms.2.dropWhile Char.isDigit)
    else none

/-- Digit-string value. -/
def natOfDigits (l : List Char) : Nat :=
  l.foldl (fun a c => a * 10 + (c.toNat - 48)) 0

/-- Modelled from the spec: Math2.scientificToDecimal expands a
scientific literal into a plain decimal literal by shifting the decimal
point of the mantissa by the exponent. -/
def sciExpand (lit : SciLit) : List Char :=
  let k : Int := (if lit.minus.isEmpty then 1 else -1) * (natOfDigits lit.d3 : Int)
  let ip := lit.d1
  let fp := lit.d2
  lit.neg ++
    (if 0 ≤ k then
      let n := k.toNat
      if fp.length ≤ n then ip ++ fp ++ List.replicate (n - fp.length) '0'
      else ip ++ fp.take n ++ '.' :: fp.drop n
    else
      let n := (-k).toNat
      if ip.length ≤ n then '0' :: '.' :: (List.replicate (n - ip.length) '0' ++ ip ++ fp)
      else ip.take (ip.length - n) ++ '.' :: (ip.drop (ip.length - n) ++ fp))

/-- The global scientific replace at line 120. -/
def sciScanF : Nat → List Char → List Char
  | 0, s => s
  | _ + 1, [] => []
  | fuel + 1, c :: r =>
    match sciTry (c :: r) with
    | some (lit, rest) => sciExpand lit ++ sciScanF fuel rest
    | none => c :: sciScanF fuel r

/-- The scientific step, guarded by the contains-e test at line 118. -/
def sciStep (e : List Char) : List Char :=
  if e.any (fun c => c = 'e' || c = 'E') then sciScanF e.length e else e

/-- Modelled from the spec: Settings.IMPLIED_MULTIPLICATION_REGEX, a
coefficient optionally preceded by operator characters directly followed
by an identifier, as two groups: operator run plus digit run, and letter
run plus operator run.  Returns the two groups and the rest. -/
def impTry (s : List Char) : Option (List Char × List Char × List Char) :=
  let g1a := s.takeWhile isOpCh
  let s1 := s.dropWhile isOpCh
  let d := s1.takeWhile Char.isDigit
  if d.isEmpty then none else
  let s2 := s1.dropWhile Char.isDigit
  let ls := s2.takeWhile (fun c => c.isAlpha || c = '_')
  if ls.isEmpty then none else
  let s3 := s2.dropWhile (fun c => c.isAlpha || c = '_')
  let g2b := s3.takeWhile isOpCh
  some (g1a ++ d, ls ++ g2b, s3.dropWhile isOpCh)

/-- The implied-multiplication replace at lines 126-137: the callback
inserts a star between the groups unless the first matched character is
an operator character, or the character before the match exists and is a
letter; prev carries the character before the scan position of the
original string. -/
def impScanF : Nat → Option Char → List Char → List Char
  | 0, _, s => s
  | _ + 1, _, [] => []
  | fuel + 1, prev, c :: r =>
    match impTry (c :: r) with
    | some (g1, g2, rest) =>
      let dd : List Char :=
        if isOpCh c then ['*']
        else match prev with
          | some b => if b.isAlpha then [] else ['*']
          | none => ['*']
      g1 ++ dd ++ g2 ++ impScanF fuel g2.getLast? rest
    | none => c :: impScanF fuel (some c) r

/-- Modelled from the spec: the isNaN test on an alphanumeric run, true
exactly on unsigned integer literals. -/
def jsAllDigits (l : List Char) : Bool := !l.isEmpty && l.all Char.isDigit

/-- a.split, joined with stars. -/
def intersperseStar : List Char → List Char
  | [] => []
  | [c] => [c]
  | c :: r => c :: '*' :: intersperseStar r

/-- The single-character variable split at lines 138-146: each
alphanumeric run is split into a star product when the multicharacter
setting is off, the run is not a function name and not a number. -/
def multiSplitF (isFn : List Char → Bool) (useMulti : Bool) : Nat → List Char → List Char
  | 0, s => s
  | _ + 1, [] => []
  | fuel + 1, c :: r =>
    if isWordC c then
      (if !useMulti && !isFn (c :: r.takeWhile isWordC) then
        (if jsAllDigits (c :: r.takeWhile isWordC) then c :: r.takeWhile isWordC
         else intersperseStar (c :: r.takeWhile isWordC))
       else c :: r.takeWhile isWordC)
        ++ multiSplitF isFn useMulti fuel (r.dropWhile isWordC)
    else c :: multiSplitF isFn useMulti fuel r

/-- The close-open bracket rewrite at line 147. -/
def parenPairs : List Char → List Char
  | [] => []
  | ')' :: '(' :: r => ')' :: '*' :: '(' :: parenPairs r
  | c :: r => c :: parenPairs r

/-- One pass of the loop regex at lines 150-166: an alphanumeric run
directly followed by an open bracket, or a close bracket directly
followed by an alphanumeric run, gets a star between the groups unless
the first group is a function name. -/
def loopScanF (isFn : List Char → Bool) : Nat → List Char → List Char
  | 0, s => s
  | _ + 1, [] => []
  | fuel + 1, c :: r =>
    if isWordC c then
      if headIs (fun x => x = '(') (r.dropWhile isWordC) then
        (c :: r.takeWhile isWordC)
          ++ (if isFn (c :: r.takeWhile isWordC) then ['('] else ['*', '('])
          ++ loopScanF isFn fuel (r.dropWhile isWordC).tail
      else (c :: r.takeWhile isWordC) ++ loopScanF isFn fuel (r.dropWhile isWordC)
    else if c = ')' then
      if headIs isWord2C r then
        ')' :: ((if isFn [')'] then [] else ['*']) ++ (r.takeWhile isWord2C
          ++ loopScanF isFn fuel (r.dropWhile isWord2C)))
      else ')' :: loopScanF isFn fuel r
    else c :: loopScanF isFn fuel r

/-- One pass of the loop replace over the whole string. -/
def loopScan (isFn : List Char → Bool) (s : List Char) : List Char :=
  loopScanF isFn s.length s

/-- An adjacent pair that the loop regex can still match across: an
alphanumeric character before an open bracket, or a close bracket before
an alphanumeric character. -/
def adjP (a b : Char) : Bool := (isWordC a && b = '(') || (a = ')' && isWord2C b)

/-- One unit when the previous character and the head form a matchable
pair. -/
def pairO : Option Char → Char → Nat
  | none, _ => 0
  | some x, a => if adjP x a then 1 else 0

/-- Number of matchable adjacent pairs, carrying the previous
character. -/
def adjB : Option Char → List Char → Nat
  | _, [] => 0
  | p, a :: l => pairO p a + adjB (some a) l

/-- Number of matchable adjacent pairs of the string. -/
def adj (s : List Char) : Nat := adjB none s

/-- The last character of the list, or the carried previous character
when the list is empty. -/
def lastO (p : Option Char) (xs : List Char) : Option Char :=
  match xs.getLast? with
  | some a => some a
  | none => p

/-- The while loop at lines 150-166, with the fuel playing the role of
the textual-equality termination condition: the pass count is bounded by
the number of matchable pairs. -/
def prepLoopIter (isFn : List Char → Bool) : Nat → List Char → List Char
  | 0, s => s
  | n + 1, s => if loopScan isFn s = s then s else prepLoopIter isFn n (loopScan isFn s)

/-- The loop run to its fixpoint. -/
def prepLoopGo (isFn : List Char → Bool) (s : List Char) : List Char :=
  prepLoopIter isFn (adj s + 1) s

/-- prepareExpression with no user preprocessors: whitespace collapse,
scientific expansion, implied multiplication, single-character split,
close-open bracket rewrite with the empty-string zero fallback, then the
loop to fixpoint. -/
def prepareExpression (isFn : List Char → Bool) (useMulti : Bool) (e : List Char) : List Char :=
  let e1 := collapseWs e
  let e2 := sciStep e1
  let e3 := impScanF e2.length none e2
  let e4 := multiSplitF isFn useMulti e3.length e3
  let e5 := parenPairs e4
  let e6 := if e5.isEmpty then ['0'] else e5
  prepLoopGo isFn e6

/-- An empty function table. -/
def noFns : List Char → Bool := fun _ => false

/-- C5 counterexample: prepareExpression is not idempotent.  The
expansion of the first scientific literal in x1e1e1 butts the digits 10
against the following e1, the implied-multiplication insertion between
them is suppressed because the letter x precedes the coefficient, and a
second application expands the freshly formed literal 10e1 again. -/
theorem prepareExpression_not_idempotent_cx :
    prepareExpression noFns true "x1e1e1".data = "x10e1".data
    ∧ prepareExpression noFns true "x10e1".data = "x100".data
    ∧ prepareExpression noFns true (prepareExpression noFns true "x1e1e1".data)
        ≠ prepareExpression noFns true "x1e1e1".data := by
  refine ⟨by decide, by decide, by decide⟩

theorem loopScanF_nil (isFn : List Char → Bool) (fuel : Nat) :
    loopScanF isFn fuel [] = [] := by
  cases fuel <;> rfl

theorem lastO_cons (q : Option Char) (a : Char) (xs : List Char) :
    lastO q (a :: xs) = lastO (some a) xs := by
  cases xs with
  | nil => rfl
  | cons b t =>
    rw [lastO, lastO, List.getLast?_cons_cons]
    rcases h : (b :: t).getLast? with _ | x
    · rw [List.getLast?_eq_none_iff] at h
      exact absurd h (by simp)
    · rfl

theorem adjB_append (ys : List Char) :
    ∀ (xs : List Char) (p : Option Char),
    adjB p (xs ++ ys) = adjB p xs + adjB (lastO p xs) ys := by
  intro xs
  induction xs with
  | nil =>
    intro p
    rw [List.nil_append]
    rw [show adjB p ([] : List Char) = 0 from rfl, show lastO p ([] : List Char) = p from rfl]
    omega
  | cons a t ih =>
    intro p
    rw [List.cons_append, adjB, adjB, ih (some a), lastO_cons]
    omega

theorem all_pred_last (q : Char → Bool) :
    ∀ (l : List Char) (p : Option Char) (c : Char), q c = true →
    (∀ x ∈ l, q x = true) →
    ∃ w, lastO p (c :: l) = some w ∧ q w = true := by
  intro l
  induction l with
  | nil =>
    intro p c hc _
    exact ⟨c, rfl, hc⟩
  | cons d t ih =>
    intro p c hc hall
    rw [lastO_cons]
    exact ih (some c) d (hall d (List.mem_cons_self d t))
      (fun x hx => hall x (List.mem_cons_of_mem d hx))

theorem adjP_star (x : Char) : adjP x '*' = false := by
  have h2 : ('*' : Char).isAlphanum = false := by decide
  have h3 : (('*' : Char) = '(') = False := by simp
  simp [adjP, isWord2C, h2, h3]

theorem pairO_some_star (x : Char) : pairO (some x) '*' = 0 := by
  simp [pairO, adjP_star x]

theorem pairO_star (a : Char) : pairO (some '*') a = 0 := by
  have h1 : isWordC '*' = false := by decide
  have h2 : (('*' : Char) = ')') = False := by simp
  simp [pairO, adjP, h1, h2]

theorem pairO_word_lparen (w : Char) (hw : isWordC w = true) :
    pairO (some w) '(' = 1 := by
  simp [pairO, adjP, hw]

theorem pairO_rparen_word2 (d : Char) (hd : isWord2C d = true) :
    pairO (some ')') d = 1 := by
  have h1 : isWordC ')' = false := by decide
  simp [pairO, adjP, h1, hd]

theorem pairO_rparen_star : pairO (some ')') '*' = 0 := by
  decide

theorem adjB_cons (p : Option Char) (a : Char) (l : List Char) :
    adjB p (a :: l) = pairO p a + adjB (some a) l := rfl

theorem loopScanAB (isFn : List Char → Bool) :
    ∀ (fuel : Nat) (s : List Char) (p : Option Char), s.length ≤ fuel →
    adjB p (loopScanF isFn fuel s) ≤ adjB p s
    ∧ (loopScanF isFn fuel s = s
       ∨ (s.count '*' < (loopScanF isFn fuel s).count '*'
          ∧ adjB p (loopScanF isFn fuel s) < adjB p s)) := by
  intro fuel
  induction fuel with
  | zero =>
    intro s p _
    exact ⟨Nat.le_refl _, Or.inl rfl⟩
  | succ fuel ih =>
    intro s p h
    rcases s with _ | ⟨c, r⟩
    · rw [loopScanF_nil]
      exact ⟨Nat.le_refl _, Or.inl rfl⟩
    · have hlen : r.length ≤ fuel := by
        simp [List.length_cons] at h
        omega
      rw [loopScanF]
      by_cases hw : isWordC c = true
      · rw [if_pos hw]
        obtain ⟨w, hqw, hww⟩ :=
          all_pred_last isWordC (r.takeWhile isWordC) p c hw
            (fun x hx => List.mem_takeWhile_imp hx)
        by_cases hH : headIs (fun x => x = '(') (r.dropWhile isWordC) = true
        · rw [if_pos hH]
          rcases hA : r.dropWhile isWordC with _ | ⟨a0, rest2⟩
          · rw [hA] at hH
            simp [headIs] at hH
          · rw [hA] at hH
            simp only [headIs, decide_eq_true_eq] at hH
            subst hH
            rw [List.tail_cons]
            have hs : (c :: r.takeWhile isWordC) ++ ('(' :: rest2) = c :: r := by
              rw [List.cons_append]
              rw [show r.takeWhile isWordC ++ '(' :: rest2 = r by
                rw [← hA]
                exact List.takeWhile_append_dropWhile isWordC r]
            have hrest : rest2.length ≤ fuel := by
              have h1 : (r.dropWhile isWordC).length ≤ r.length :=
                (List.dropWhile_sublist isWordC).length_le
              rw [hA] at h1
              simp [List.length_cons] at h1
              omega
            obtain ⟨ih1, ih2⟩ := ih rest2 (some '(') hrest
            have e2 : adjB p (c :: r)
                = adjB p (c :: r.takeWhile isWordC) + (1 + adjB (some '(') rest2) := by
              rw [← hs, adjB_append, hqw, adjB_cons (some w) '(', pairO_word_lparen w hww]
            have hx : ('(' :: rest2).count '*' = rest2.count '*' := by
              simp
            have c2 : (c :: r).count '*'
                = (c :: r.takeWhile isWordC).count '*' + rest2.count '*' := by
              rw [← hs, List.count_append, hx]
            by_cases hf : isFn (c :: r.takeWhile isWordC) = true
            · rw [if_pos hf]
              have e1 : adjB p ((c :: r.takeWhile isWordC) ++ ['('] ++ loopScanF isFn fuel rest2)
                  = adjB p (c :: r.takeWhile isWordC)
                    + (1 + adjB (some '(') (loopScanF isFn fuel rest2)) := by
                rw [List.append_assoc, adjB_append, hqw, List.singleton_append,
                  adjB_cons (some w) '(', pairO_word_lparen w hww]
              have c1 : ((c :: r.takeWhile isWordC) ++ ['('] ++ loopScanF isFn fuel rest2).count '*'
                  = (c :: r.takeWhile isWordC).count '*'
                    + (loopScanF isFn fuel rest2).count '*' := by
                rw [List.count_append, List.count_append,
                  (by decide : (['('] : List Char).count '*' = 0)]
                omega
              constructor
              · rw [e1, e2]
                omega
              · rcases ih2 with heq | ⟨hc, ha⟩
                · left
                  rw [heq, List.append_assoc, List.singleton_append]
                  exact hs
                · right
                  constructor
                  · rw [c1, c2]
                    omega
                  · rw [e1, e2]
                    omega
            · rw [if_neg hf]
              have e1 : adjB p ((c :: r.takeWhile isWordC) ++ ['*', '('] ++ loopScanF isFn fuel rest2)
                  = adjB p (c :: r.takeWhile isWordC)
                    + adjB (some '(') (loopScanF isFn fuel rest2) := by
                rw [List.append_assoc, adjB_append, hqw, List.cons_append, List.cons_append,
                  List.nil_append, adjB_cons (some w) '*', adjB_cons (some '*') '(',
                  pairO_some_star w, pairO_star '(']
                omega
              have c1 : ((c :: r.takeWhile isWordC) ++ ['*', '('] ++ loopScanF isFn fuel rest2).count '*'
                  = (c :: r.takeWhile isWordC).count '*'
                    + (1 + (loopScanF isFn fuel rest2).count '*') := by
                rw [List.count_append, List.count_append,
                  (by decide : (['*', '('] : List Char).count '*' = 1)]
                omega
              have hcount : rest2.count '*' ≤ (loopScanF isFn fuel rest2).count '*' := by
                rcases ih2 with heq | ⟨hc, _⟩
                · rw [heq]
                · exact Nat.le_of_lt hc
              refine ⟨?_, Or.inr ⟨?_, ?_⟩⟩
              · rw [e1, e2]
                omega
              · rw [c1, c2]
                omega
              · rw [e1, e2]
                omega
        · rw [if_neg hH]
          have hs2 : (c :: r.takeWhile isWordC) ++ r.dropWhile isWordC = c :: r := by
            rw [List.cons_append, List.takeWhile_append_dropWhile]
          have hdlen : (r.dropWhile isWordC).length ≤ fuel :=
            Nat.le_trans (List.dropWhile_sublist isWordC).length_le hlen
          obtain ⟨ih1, ih2⟩ := ih (r.dropWhile isWordC) (some w) hdlen
          have e1 : adjB p ((c :: r.takeWhile isWordC) ++ loopScanF isFn fuel (r.dropWhile isWordC))
              = adjB p (c :: r.takeWhile isWordC)
                + adjB (some w) (loopScanF isFn fuel (r.dropWhile isWordC)) := by
            rw [adjB_append, hqw]
          have e2 : adjB p (c :: r)
              = adjB p (c :: r.takeWhile isWordC) + adjB (some w) (r.dropWhile isWordC) := by
            rw [← hs2, adjB_append, hqw]
          have c1 : ((c :: r.takeWhile isWordC) ++ loopScanF isFn fuel (r.dropWhile isWordC)).count '*'
              = (c :: r.takeWhile isWordC).count '*'
                + (loopScanF isFn fuel (r.dropWhile isWordC)).count '*' := by
            rw [List.count_append]
          have c2 : (c :: r).count '*'
              = (c :: r.takeWhile isWordC).count '*' + (r.dropWhile isWordC).count '*' := by
            rw [← hs2, List.count_append]
          constructor
          · rw [e1, e2]
            omega
          · rcases ih2 with heq | ⟨hc, ha⟩
            · left
              rw [heq]
              exact hs2
            · right
              constructor
              · rw [c1, c2]
                omega
              · rw [e1, e2]
                omega
      · rw [if_neg hw]
        by_cases hp : c = ')'
        · subst hp
          rw [if_pos rfl]
          rcases r with _ | ⟨d, r2⟩
          · rw [if_neg (show ¬(headIs isWord2C ([] : List Char) = true) by simp [headIs])]
            rw [loopScanF_nil]
            exact ⟨Nat.le_refl _, Or.inl rfl⟩
          · have hlen2 : r2.length ≤ fuel := by
              simp [List.length_cons] at hlen
              omega
            by_cases hd : isWord2C d = true
            · rw [if_pos (show headIs isWord2C (d :: r2) = true by simp [headIs, hd])]
              have ht : (d :: r2).takeWhile isWord2C = d :: r2.takeWhile isWord2C :=
                List.takeWhile_cons_of_pos hd
              have hdp : (d :: r2).dropWhile isWord2C = r2.dropWhile isWord2C :=
                List.dropWhile_cons_of_pos hd
              rw [ht, hdp]
              have hs3 : r2.takeWhile isWord2C ++ r2.dropWhile isWord2C = r2 :=
                List.takeWhile_append_dropWhile isWord2C r2
              have hs4 : (d :: r2.takeWhile isWord2C) ++ r2.dropWhile isWord2C = d :: r2 := by
                rw [List.cons_append, hs3]
              have hdlen : (r2.dropWhile isWord2C).length ≤ fuel :=
                Nat.le_trans (List.dropWhile_sublist isWord2C).length_le hlen2
              obtain ⟨ih1, ih2⟩ :=
                ih (r2.dropWhile isWord2C) (lastO (some d) (r2.takeWhile isWord2C)) hdlen
              have e2 : adjB p (')' :: d :: r2)
                  = pairO p ')'
                    + (1 + (adjB (some d) (r2.takeWhile isWord2C)
                      + adjB (lastO (some d) (r2.takeWhile isWord2C)) (r2.dropWhile isWord2C))) := by
                rw [adjB_cons p ')', show (d :: r2) = (d :: r2.takeWhile isWord2C) ++ r2.dropWhile isWord2C from hs4.symm,
                  adjB_append, lastO_cons, adjB_cons (some ')') d, pairO_rparen_word2 d hd]
                omega
              have c2 : (')' :: d :: r2).count '*'
                  = ([')'] : List Char).count '*' + ((d :: r2.takeWhile isWord2C).count '*'
                    + (r2.dropWhile isWord2C).count '*') := by
                rw [show (')' :: d :: r2) = [')'] ++ ((d :: r2.takeWhile isWord2C) ++ r2.dropWhile isWord2C) by
                  rw [hs4]
                  rfl]
                rw [List.count_append, List.count_append]
              by_cases hfp : isFn [')'] = true
              · rw [if_pos hfp, List.nil_append]
                have e1 : adjB p (')' :: ((d :: r2.takeWhile isWord2C)
                      ++ loopScanF isFn fuel (r2.dropWhile isWord2C)))
                    = pairO p ')'
                      + (1 + (adjB (some d) (r2.takeWhile isWord2C)
                        + adjB (lastO (some d) (r2.takeWhile isWord2C))
                            (loopScanF isFn fuel (r2.dropWhile isWord2C)))) := by
                  rw [adjB_cons p ')', adjB_append, lastO_cons, adjB_cons (some ')') d,
                    pairO_rparen_word2 d hd]
                  omega
                have c1 : (')' :: ((d :: r2.takeWhile isWord2C)
                      ++ loopScanF isFn fuel (r2.dropWhile isWord2C))).count '*'
                    = ([')'] : List Char).count '*' + ((d :: r2.takeWhile isWord2C).count '*'
                      + (loopScanF isFn fuel (r2.dropWhile isWord2C)).count '*') := by
                  rw [show (')' :: ((d :: r2.takeWhile isWord2C) ++ loopScanF isFn fuel (r2.dropWhile isWord2C)))
                      = [')'] ++ ((d :: r2.takeWhile isWord2C) ++ loopScanF isFn fuel (r2.dropWhile isWord2C)) from rfl]
                  rw [List.count_append, List.count_append]
                constructor
                · rw [e1, e2]
                  omega
                · rcases ih2 with heq | ⟨hc, ha⟩
                  · left
                    rw [heq, hs4]
                  · right
                    constructor
                    · rw [c1, c2]
                      omega
                    · rw [e1, e2]
                      omega
              · rw [if_neg hfp]
                have e1 : adjB p (')' :: (['*'] ++ ((d :: r2.takeWhile isWord2C)
                      ++ loopScanF isFn fuel (r2.dropWhile isWord2C))))
                    = pairO p ')'
                      + (adjB (some d) (r2.takeWhile isWord2C)
                        + adjB (lastO (some d) (r2.takeWhile isWord2C))
                            (loopScanF isFn fuel (r2.dropWhile isWord2C))) := by
                  rw [adjB_cons p ')', List.singleton_append, adjB_cons (some ')') '*',
                    pairO_rparen_star, adjB_append, lastO_cons, adjB_cons (some '*') d,
                    pairO_star d]
                  omega
                have c1 : (')' :: (['*'] ++ ((d :: r2.takeWhile isWord2C)
                      ++ loopScanF isFn fuel (r2.dropWhile isWord2C)))).count '*'
                    = ([')'] : List Char).count '*' + (1 + ((d :: r2.takeWhile isWord2C).count '*'
                      + (loopScanF isFn fuel (r2.dropWhile isWord2C)).count '*')) := by
                  rw [show (')' :: (['*'] ++ ((d :: r2.takeWhile isWord2C) ++ loopScanF isFn fuel (r2.dropWhile isWord2C))))
                      = [')'] ++ (['*'] ++ ((d :: r2.takeWhile isWord2C) ++ loopScanF isFn fuel (r2.dropWhile isWord2C))) from rfl]
                  rw [List.count_append, List.count_append, List.count_append,
                    (by decide : (['*'] : List Char).count '*' = 1)]
                have hcount : (r2.dropWhile isWord2C).count '*'
                    ≤ (loopScanF isFn fuel (r2.dropWhile isWord2C)).count '*' := by
                  rcases ih2 with heq | ⟨hc, _⟩
                  · rw [heq]
                  · exact Nat.le_of_lt hc
                refine ⟨?_, Or.inr ⟨?_, ?_⟩⟩
                · rw [e1, e2]
                  omega
                · rw [c1, c2]
                  omega
                · rw [e1, e2]
                  omega
            · rw [if_neg (show ¬(headIs isWord2C (d :: r2) = true) by simp [headIs, hd])]
              obtain ⟨ih1, ih2⟩ := ih (d :: r2) (some ')') hlen
              constructor
              · rw [adjB_cons p ')', adjB_cons p ')']
                omega
              · rcases ih2 with heq | ⟨hc, ha⟩
                · left
                  rw [heq]
                · right
                  constructor
                  · simp only [List.count_cons] at hc ⊢
                    omega
                  · rw [adjB_cons p ')', adjB_cons p ')']
                    omega
        · rw [if_neg hp]
          obtain ⟨ih1, ih2⟩ := ih r (some c) hlen
          constructor
          · rw [adjB_cons p c, adjB_cons p c]
            omega
          · rcases ih2 with heq | ⟨hc, ha⟩
            · left
              rw [heq]
            · right
              constructor
              · simp only [List.count_cons]
                omega
              · rw [adjB_cons p c, adjB_cons p c]
                omega

theorem loopScan_progress (isFn : List Char → Bool) (s : List Char) :
    loopScan isFn s = s ∨ s.count '*' < (loopScan isFn s).count '*' := by
  rcases (loopScanAB isFn s.length s none (Nat.le_refl _)).2 with heq | ⟨hc, _⟩
  · exact Or.inl heq
  · exact Or.inr hc

theorem loopScan_adj (isFn : List Char → Bool) (s : List Char)
    (h : loopScan isFn s ≠ s) : adj (loopScan isFn s) < adj s := by
  rcases (loopScanAB isFn s.length s none (Nat.le_refl _)).2 with heq | ⟨_, ha⟩
  · exact absurd heq h
  · exact ha

theorem prepLoopIter_fix (isFn : List Char → Bool) :
    ∀ (n : Nat) (s : List Char), adj s < n →
    loopScan isFn (prepLoopIter isFn n s) = prepLoopIter isFn n s := by
  intro n
  induction n with
  | zero =>
    intro s h
    exact absurd h (Nat.not_lt_zero _)
  | succ n ihn =>
    intro s h
    rw [prepLoopIter]
    by_cases hf : loopScan isFn s = s
    · rw [if_pos hf]
      exact hf
    · rw [if_neg hf]
      refine ihn (loopScan isFn s) ?_
      have := loopScan_adj isFn s hf
      omega

/-- C5: the implicit-multiplication rewrite loop of prepareExpression
makes progress and terminates, as amended: one pass of the loop regex
either returns the string unchanged, so the textual-equality condition
exits the loop, or strictly increases the star operator count; and the
number of remaining matchable identifier-bracket adjacencies strictly
decreases on every changing pass, so the loop iterated from any string
reaches a true fixpoint of the pass.  The idempotence half of the
original claim is refuted separately by the counterexample. -/
theorem prepare_loop_progress (isFn : List Char → Bool) (s : List Char) :
    (loopScan isFn s = s ∨ s.count '*' < (loopScan isFn s).count '*')
    ∧ loopScan isFn (prepLoopGo isFn s) = prepLoopGo isFn s :=
  ⟨loopScan_progress isFn s,
   prepLoopIter_fix isFn (adj s + 1) s (Nat.lt_succ_self (adj s))⟩

end NerdamerModel
